import Mathlib

/-!
# Verification of `duetbackup.go`

A shallow embedding of the core of `duetbackup.go` (package `main`):
the listing fetcher `getFileList`, the exclude matcher (`excludes.Set`,
`excludes.Contains`, `cleanPath`), the local mirror updater
(`ensureOutDirExists`, `updateLocalFiles`), the stale reclaimer
(`isManagedDirectory`, `removeDeletedFiles`) and the orchestrator
`syncFolder`.

Modelling conventions:
* Machine integers (`uint64`) become `Nat`; none of the verified paths
  overflow-sensitive arithmetic, so no modular reduction is needed.
* `time.Time` values become `Nat` (seconds on an abstract clock);
  `ModTime().Before(t)` is strict `<`, exactly as in Go.
* The local filesystem is an explicit tree of nodes; paths are lists of
  segments (`filepath.Join(dir, name)` becomes `dir ++ [name]`).
* Fallible OS and network calls are driven by explicit oracles in an
  `Env` record, so error-propagation behaviour is part of the model.
* HTTP is abstracted to the query parameters the Go code actually puts
  in the URL: `url.QueryEscape` is injective, so the escaping is
  absorbed into the abstract server/download functions, which are keyed
  by the unescaped strings.
-/

namespace Duetbackup

/-- Constant `typeDirectory = "d"` from the source. -/
def typeDirectory : String := "d"

/-- Constant `typeFile = "f"` from the source. -/
def typeFile : String := "f"

/-- Constant `dirMarker = ".duetbackup"` from the source. -/
def dirMarker : String := ".duetbackup"

/-- Go struct `file`: one entry of an `rr_filelist` response.
Field `Type` is renamed `type` (capital `Type` is reserved in Lean),
`Name`, `Size`, `Date` are lowercased; `Date` (a `localTime`) is the
parsed timestamp, modelled as a `Nat`. -/
structure file where
  type : String
  name : String
  size : Nat
  date : Nat
deriving DecidableEq, Repr

/-- Go struct `filelist`: `Dir`, `Files`, and the unexported field
`next`. -/
structure filelist where
  Dir : String
  Files : List file
  next : Nat
deriving DecidableEq, Repr

/-- The JSON object the device actually sends for `rr_filelist`
(all three properties present on the wire). -/
structure FileListResponse where
  Dir : String
  Files : List file
  next : Nat
deriving DecidableEq, Repr

/-- `json.Unmarshal` of an `rr_filelist` body into Go's `filelist`.
The struct field `next` is unexported (lowercase) in the source, so
`encoding/json` can never set it: it always remains `0`. -/
def unmarshalFilelist (r : FileListResponse) : filelist :=
  { Dir := r.Dir, Files := r.Files, next := 0 }

/-- Strict lexicographic comparison of character lists by code point.
On UTF-8 data this coincides with Go's bytewise `<` on strings (UTF-8
encoding preserves code-point order). -/
def ltChars : List Char → List Char → Bool
  | _, [] => false
  | [], _ :: _ => true
  | a :: as, b :: bs =>
    if a.toNat < b.toNat then true
    else if b.toNat < a.toNat then false
    else ltChars as bs

/-- Go's `<` on strings, as an executable comparison. -/
def strLt (a b : String) : Bool := ltChars a.data b.data

theorem ltChars_irrefl : ∀ as, ltChars as as = false
  | [] => rfl
  | a :: as => by
    show (if a.toNat < a.toNat then true
      else if a.toNat < a.toNat then false else ltChars as as) = false
    rw [if_neg (Nat.lt_irrefl _), if_neg (Nat.lt_irrefl _)]
    exact ltChars_irrefl as

theorem ltChars_asymm : ∀ as bs, ltChars as bs = true → ltChars bs as = false := by
  intro as
  induction as with
  | nil =>
    intro bs _
    cases bs with
    | nil => rfl
    | cons b bs => rfl
  | cons a as ih =>
    intro bs h
    cases bs with
    | nil => exact absurd h (by simp [ltChars])
    | cons b bs =>
      show (if b.toNat < a.toNat then true
        else if a.toNat < b.toNat then false else ltChars bs as) = false
      replace h : (if a.toNat < b.toNat then true
          else if b.toNat < a.toNat then false else ltChars as bs) = true := h
      by_cases h1 : a.toNat < b.toNat
      · rw [if_neg (by omega : ¬ b.toNat < a.toNat), if_pos h1]
      · by_cases h2 : b.toNat < a.toNat
        · rw [if_neg h1, if_pos h2] at h
          exact absurd h (by simp)
        · rw [if_neg h1, if_neg h2] at h
          rw [if_neg h2, if_neg h1]
          exact ih bs h

theorem ltChars_negtrans :
    ∀ as bs cs, ltChars bs as = false → ltChars cs bs = false →
      ltChars cs as = false := by
  intro as
  induction as with
  | nil =>
    intro bs cs _ _
    cases cs with
    | nil => rfl
    | cons c cs => rfl
  | cons a as ih =>
    intro bs cs hba hcb
    cases cs with
    | nil =>
      cases bs with
      | nil => exact absurd hba (by simp [ltChars])
      | cons b bs => exact absurd hcb (by simp [ltChars])
    | cons c cs =>
      cases bs with
      | nil => exact absurd hba (by simp [ltChars])
      | cons b bs =>
        replace hba : (if b.toNat < a.toNat then true
            else if a.toNat < b.toNat then false else ltChars bs as) = false := hba
        replace hcb : (if c.toNat < b.toNat then true
            else if b.toNat < c.toNat then false else ltChars cs bs) = false := hcb
        show (if c.toNat < a.toNat then true
          else if a.toNat < c.toNat then false else ltChars cs as) = false
        by_cases hba1 : b.toNat < a.toNat
        · rw [if_pos hba1] at hba
          exact absurd hba (by simp)
        · by_cases hcb1 : c.toNat < b.toNat
          · rw [if_pos hcb1] at hcb
            exact absurd hcb (by simp)
          · have hca1 : ¬ c.toNat < a.toNat := by omega
            rw [if_neg hca1]
            by_cases hca2 : a.toNat < c.toNat
            · rw [if_pos hca2]
            · rw [if_neg hca2]
              have hba2 : ¬ a.toNat < b.toNat := by omega
              have hcb2 : ¬ b.toNat < c.toNat := by omega
              rw [if_neg hba1, if_neg hba2] at hba
              rw [if_neg hcb1, if_neg hcb2] at hcb
              exact ih bs cs hba hcb

/-- The comparison closure passed to `sort.SliceStable` in
`getFileList`: entries of equal `Type` compare by `Name` (Go's
bytewise string `<`), otherwise directories sort first. -/
def lessGo (a b : file) : Bool :=
  if a.type = b.type then strLt a.name b.name
  else decide (a.type = typeDirectory)

/-- Stable insertion of `x` into a list already stably sorted by the
strict comparator `less`: `x` goes after every element strictly less
than it, hence after all earlier-arrived elements of equal key. -/
def insertStable (less : α → α → Bool) (x : α) : List α → List α
  | [] => [x]
  | b :: bs => if less b x then b :: insertStable less x bs else x :: b :: bs

/-- Model of `sort.SliceStable` with comparator `less`: stable
insertion sort. -/
def sortStable (less : α → α → Bool) : List α → List α
  | [] => []
  | x :: xs => insertStable less x (sortStable less xs)

/-- The sort applied by `getFileList` to the assembled `Files` slice. -/
def sortFiles (l : List file) : List file :=
  sortStable lessGo l

/-- An abstract listing server: the device side of
`GET {base}/rr_filelist?dir={dir}[&first={cursor}]`.
The second argument is the `first` query parameter (`none` when the
URL carries no such parameter). -/
abbrev ListServer := String → Option Nat → Except String FileListResponse

/-- `getFileList(baseURL, dir, first)` from the source, with the HTTP
transport abstracted into `server` and the unbounded Go recursion made
total by a fuel argument (fuel `0` plays the role of nontermination).

Faithful to the source in both of its pagination defects:
* the request URL is `baseURL + fileListURL + dir` — the `first`
  parameter is never encoded into the URL, hence `server dir none`;
* `fl.next` comes from `unmarshalFilelist`, which (like
  `encoding/json` on the unexported field `next`) always leaves it `0`,
  so the `fl.next > 0` recursion branch is dead code. -/
def getFileList (server : ListServer) (dir : String) (first : Nat) :
    Nat → Except String filelist
  | 0 => .error "recursion limit"
  | fuel + 1 =>
    match server dir none with
    | .error e => .error e
    | .ok raw =>
      let fl := unmarshalFilelist raw
      if 0 < fl.next then
        match getFileList server dir fl.next fuel with
        | .error e => .error e
        | .ok more =>
          .ok { Dir := fl.Dir, Files := sortFiles (fl.Files ++ more.Files),
                next := fl.next }
      else
        .ok { Dir := fl.Dir, Files := sortFiles fl.Files, next := fl.next }

/-- One fetch step always returns the sorted first page: the cursor
chain is never followed (`next` is erased by unmarshalling and `first`
is never sent). -/
theorem getFileList_first_page (server : ListServer) (dir : String)
    (first fuel : Nat) (raw : FileListResponse)
    (h : server dir none = .ok raw) :
    getFileList server dir first (fuel + 1) =
      .ok { Dir := raw.Dir, Files := sortFiles raw.Files, next := 0 } := by
  simp [getFileList, h, unmarshalFilelist]

/-! ## Properties of the listing sort -/

/-- Two entries have the same sort key for `lessGo`: same `Type` and
same `Name` (on `"d"`/`"f"`-typed entries this is exactly
`lessGo a b = false ∧ lessGo b a = false`). -/
def sameKey (a b : file) : Prop := a.type = b.type ∧ a.name = b.name

instance (a b : file) : Decidable (sameKey a b) := by
  unfold sameKey; infer_instance

/-- An entry whose `Type` is one of the two wire values. -/
def dfType (a : file) : Prop := a.type = typeDirectory ∨ a.type = typeFile

instance (a : file) : Decidable (dfType a) := by
  unfold dfType; infer_instance

theorem lessGo_asymm {a b : file} (h : lessGo a b = true) :
    lessGo b a = false := by
  unfold lessGo at *
  by_cases hab : a.type = b.type
  · rw [if_pos hab] at h
    rw [if_pos hab.symm]
    exact ltChars_asymm _ _ h
  · have h1 : ¬ b.type = a.type := fun h' => hab h'.symm
    rw [if_neg hab] at h
    rw [if_neg h1]
    simp only [decide_eq_true_eq] at h
    simp only [decide_eq_false_iff_not]
    intro hbd
    exact hab (h.trans hbd.symm)

theorem lessGo_of_sameKey {a b x : file} (hb : sameKey b a) (hx : sameKey x a) :
    lessGo b x = false := by
  obtain ⟨hbt, hbn⟩ := hb
  obtain ⟨hxt, hxn⟩ := hx
  unfold lessGo
  rw [if_pos (hbt.trans hxt.symm), hbn.trans hxn.symm]
  exact ltChars_irrefl _

/-- Negative transitivity of `lessGo` on `"d"`/`"f"`-typed entries:
on that domain `lessGo` is the strict lexicographic order on
(directory-first rank, name). -/
theorem lessGo_negtrans {a b c : file}
    (ha : dfType a) (hb : dfType b) (hc : dfType c)
    (hba : lessGo b a = false) (hcb : lessGo c b = false) :
    lessGo c a = false := by
  unfold lessGo at *
  by_cases hab : a.type = b.type
  · by_cases hbc : b.type = c.type
    · have h1 : b.type = a.type := hab.symm
      have h2 : c.type = b.type := hbc.symm
      have h3 : c.type = a.type := h2.trans h1
      rw [if_pos h1] at hba
      rw [if_pos h2] at hcb
      rw [if_pos h3]
      exact ltChars_negtrans _ _ _ hba hcb
    · have h2 : ¬ c.type = b.type := fun h => hbc h.symm
      rw [if_neg h2] at hcb
      have h3 : ¬ c.type = a.type := fun h => h2 (h.trans hab)
      rw [if_neg h3]
      exact hcb
  · have h1 : ¬ b.type = a.type := fun h => hab h.symm
    rw [if_neg h1] at hba
    have hbd : ¬ b.type = typeDirectory := by simpa using hba
    have hbf : b.type = typeFile := hb.resolve_left hbd
    have had : a.type = typeDirectory := by
      rcases ha with h | h
      · exact h
      · exact absurd (h.trans hbf.symm).symm h1
    by_cases hbc : b.type = c.type
    · have h3 : ¬ c.type = a.type := fun h => h1 (hbc.trans h)
      rw [if_neg h3]
      have hcf : c.type = typeFile := hbc.symm.trans hbf
      simp [hcf, typeFile, typeDirectory]
    · have h2 : ¬ c.type = b.type := fun h => hbc h.symm
      rw [if_neg h2] at hcb
      have hcd : ¬ c.type = typeDirectory := by simpa using hcb
      by_cases h3 : c.type = a.type
      · exact absurd (h3.trans had) hcd
      · rw [if_neg h3]
        exact hcb

theorem mem_insertStable {less : α → α → Bool} {x y : α} {l : List α} :
    y ∈ insertStable less x l ↔ y = x ∨ y ∈ l := by
  induction l with
  | nil => simp [insertStable]
  | cons b bs ih =>
    unfold insertStable
    by_cases h : less b x = true <;> simp [h, ih] <;> tauto

theorem insertStable_perm (less : α → α → Bool) (x : α) (l : List α) :
    List.Perm (insertStable less x l) (x :: l) := by
  induction l with
  | nil => simp [insertStable]
  | cons b bs ih =>
    unfold insertStable
    by_cases h : less b x = true
    · simp only [h, if_true]
      exact (ih.cons b).trans (List.Perm.swap x b bs)
    · simp [h]

theorem sortStable_perm (less : α → α → Bool) (l : List α) :
    List.Perm (sortStable less l) l := by
  induction l with
  | nil => simp [sortStable]
  | cons x xs ih =>
    exact (insertStable_perm less x (sortStable less xs)).trans (ih.cons x)

theorem pairwise_insertStable {x : file} {l : List file}
    (hx : dfType x) (hl : ∀ y ∈ l, dfType y)
    (h : l.Pairwise (fun a b => lessGo b a = false)) :
    (insertStable lessGo x l).Pairwise (fun a b => lessGo b a = false) := by
  induction l with
  | nil => simp [insertStable]
  | cons b bs ih =>
    rw [List.pairwise_cons] at h
    unfold insertStable
    cases hbx : lessGo b x with
    | true =>
      rw [if_pos rfl]
      rw [List.pairwise_cons]
      constructor
      · intro y hy
        rcases mem_insertStable.mp hy with rfl | hy
        · exact lessGo_asymm hbx
        · exact h.1 y hy
      · exact ih (fun y hy => hl y (List.mem_cons_of_mem b hy)) h.2
    | false =>
      rw [if_neg Bool.false_ne_true]
      rw [List.pairwise_cons]
      refine ⟨?_, List.pairwise_cons.mpr h⟩
      intro y hy
      rcases List.mem_cons.mp hy with rfl | hy
      · exact hbx
      · exact lessGo_negtrans hx (hl b (List.mem_cons_self b bs))
          (hl y (List.mem_cons_of_mem b hy)) hbx (h.1 y hy)

theorem pairwise_sortFiles {l : List file} (hl : ∀ y ∈ l, dfType y) :
    (sortFiles l).Pairwise (fun a b => lessGo b a = false) := by
  induction l with
  | nil => simp [sortFiles, sortStable]
  | cons x xs ih =>
    have hxs : ∀ y ∈ xs, dfType y := fun y hy => hl y (List.mem_cons_of_mem x hy)
    have hmem : ∀ y ∈ sortStable lessGo xs, dfType y := fun y hy =>
      hxs y ((sortStable_perm lessGo xs).mem_iff.mp hy)
    exact pairwise_insertStable (hl x (List.mem_cons_self x xs)) hmem (ih hxs)

theorem filter_insertStable_pos {x a : file} (hx : sameKey x a) (l : List file) :
    (insertStable lessGo x l).filter (fun y => decide (sameKey y a)) =
      x :: l.filter (fun y => decide (sameKey y a)) := by
  induction l with
  | nil => simp [insertStable, hx]
  | cons b bs ih =>
    unfold insertStable
    cases hbx : lessGo b x with
    | true =>
      have hb : ¬ sameKey b a := fun hb => by
        rw [lessGo_of_sameKey hb hx] at hbx
        exact Bool.false_ne_true hbx
      rw [if_pos rfl]
      simp [List.filter_cons, hb, ih]
    | false =>
      rw [if_neg Bool.false_ne_true]
      simp [List.filter_cons, hx]

theorem filter_insertStable_neg {x a : file} (hx : ¬ sameKey x a) (l : List file) :
    (insertStable lessGo x l).filter (fun y => decide (sameKey y a)) =
      l.filter (fun y => decide (sameKey y a)) := by
  induction l with
  | nil => simp [insertStable, hx]
  | cons b bs ih =>
    unfold insertStable
    cases hbx : lessGo b x with
    | true =>
      rw [if_pos rfl]
      simp [List.filter_cons, ih]
    | false =>
      rw [if_neg Bool.false_ne_true]
      simp [List.filter_cons, hx]

/-- Stability of the listing sort: the subsequence of entries with any
fixed sort key is unchanged. -/
theorem filter_sortFiles (a : file) (l : List file) :
    (sortFiles l).filter (fun y => decide (sameKey y a)) =
      l.filter (fun y => decide (sameKey y a)) := by
  induction l with
  | nil => rfl
  | cons x xs ih =>
    simp only [sortFiles, sortStable] at ih ⊢
    by_cases hx : sameKey x a
    · rw [filter_insertStable_pos hx, ih, List.filter_cons]
      simp [hx]
    · rw [filter_insertStable_neg hx, ih, List.filter_cons]
      simp [hx]

/-! ## C1: pagination of the listing fetch -/

/-- Concrete entry of page two of the failing input. -/
def fA : file := { type := "f", name := "a.g", size := 20, date := 200 }

/-- Concrete entry of page one of the failing input. -/
def fB : file := { type := "f", name := "b.g", size := 10, date := 100 }

/-- A server that partitions the listing of `0:/sys` into two pages
linked by the continuation cursor `2`: a request without `first`
returns `[fB]` with `next = 2`; a request with `first = 2` returns
`[fA]` with `next = 0`. -/
def twoPageServer : ListServer := fun d q =>
  if d = "0:/sys" then
    match q with
    | none => .ok { Dir := "0:/sys", Files := [fB], next := 2 }
    | some 2 => .ok { Dir := "0:/sys", Files := [fA], next := 0 }
    | some _ => .error "bad cursor"
  else .error "unknown dir"

/-- C1: evaluated at a two-page listing, `getFileList` returns only the
sorted first page, not the sorted concatenation of both pages that the
claim requires. The cursor chain is never followed: the Go struct field
`next` is unexported, so `json.Unmarshal` leaves it `0`, and the
request URL never carries the `first` parameter. -/
theorem getFileList_two_pages_loses_page_two :
    getFileList twoPageServer "0:/sys" 0 9 =
      .ok { Dir := "0:/sys", Files := [fB], next := 0 } ∧
    sortFiles ([fB] ++ [fA]) = [fA, fB] ∧
    ([fB] : List file) ≠ [fA, fB] :=
  ⟨rfl, rfl, by decide⟩

/-! ## C6: deterministic order of the returned entry sequence -/

/-- Concrete directory entry for the C6 witness. -/
def zDir : file := { type := "d", name := "z", size := 0, date := 3 }

/-- Concrete file entry for the C6 witness. -/
def aFile : file := { type := "f", name := "a", size := 2, date := 4 }

/-- Concrete file entry for the C6 witness. -/
def bFile : file := { type := "f", name := "b", size := 1, date := 5 }

/-- Arrival order of the C6 witness listing: a file, a directory, a
file. -/
def demoFiles : List file := [bFile, zDir, aFile]

/-- A single-page server for the C6 witness. -/
def demoServer : ListServer := fun _ _ =>
  .ok { Dir := "0:/sys", Files := demoFiles, next := 0 }

/-- C6: any entry sequence returned by the fetcher is deterministically
ordered: directories precede files, entries of the same kind are in
ascending name order, and the subsequence of entries with any fixed
sort key equals that of the arrival order (stability). -/
theorem fetcher_output_ordered (server : ListServer) (dir : String)
    (first fuel : Nat) (res : filelist) (raw : FileListResponse) (a : file)
    (hraw : server dir none = .ok raw)
    (htypes : ∀ e ∈ raw.Files, dfType e)
    (hok : getFileList server dir first fuel = .ok res) :
    res.Files.Pairwise (fun x y =>
      (x.type = typeDirectory ∧ y.type = typeFile) ∨
      (x.type = y.type ∧ strLt y.name x.name = false)) ∧
    res.Files.filter (fun y => decide (sameKey y a)) =
      raw.Files.filter (fun y => decide (sameKey y a)) := by
  cases fuel with
  | zero => simp [getFileList] at hok
  | succ n =>
    rw [getFileList_first_page server dir first n raw hraw] at hok
    simp only [Except.ok.injEq] at hok
    subst hok
    constructor
    · have hp := pairwise_sortFiles htypes
      refine hp.imp_of_mem ?_
      intro x y hxmem hymem hxy
      have hdx : dfType x :=
        htypes x ((sortStable_perm lessGo raw.Files).mem_iff.mp hxmem)
      have hdy : dfType y :=
        htypes y ((sortStable_perm lessGo raw.Files).mem_iff.mp hymem)
      unfold lessGo at hxy
      by_cases hxyt : x.type = y.type
      · rw [if_pos hxyt.symm] at hxy
        exact Or.inr ⟨hxyt, hxy⟩
      · rw [if_neg (fun h => hxyt h.symm)] at hxy
        simp only [decide_eq_false_iff_not] at hxy
        have hyf : y.type = typeFile := hdy.resolve_left hxy
        have hxd : x.type = typeDirectory := by
          rcases hdx with h | h
          · exact h
          · exact absurd (h.trans hyf.symm) hxyt
        exact Or.inl ⟨hxd, hyf⟩
    · exact filter_sortFiles a raw.Files

/-- Witness for C6 at a concrete three-entry listing. -/
theorem fetcher_output_ordered_witness :
    ([zDir, aFile, bFile] : List file).Pairwise (fun x y =>
      (x.type = typeDirectory ∧ y.type = typeFile) ∨
      (x.type = y.type ∧ strLt y.name x.name = false)) ∧
    ([zDir, aFile, bFile] : List file).filter (fun y => decide (sameKey y aFile)) =
      demoFiles.filter (fun y => decide (sameKey y aFile)) :=
  fetcher_output_ordered demoServer "0:/sys" 0 1
    { Dir := "0:/sys", Files := [zDir, aFile, bFile], next := 0 }
    { Dir := "0:/sys", Files := demoFiles, next := 0 } aFile rfl (by decide) rfl

/-! ## Exclude matcher: `cleanPath`, `excludes.Set`, `excludes.Contains` -/

/-- `charsStartsWith s p`: `p` is a literal prefix of `s`
(character-wise; on UTF-8 data this is Go's `strings.HasPrefix(s, p)`). -/
def charsStartsWith : List Char → List Char → Bool
  | _, [] => true
  | [], _ :: _ => false
  | a :: as, b :: bs => if a = b then charsStartsWith as bs else false

/-- Go's `strings.HasPrefix(s, p)` as an executable check. -/
def strStartsWith (s p : String) : Bool := charsStartsWith s.data p.data

/-- The effect of `multiSlashRegex.ReplaceAllString(path, "/")` for the
regex `/{2,}`: every maximal run of two or more slashes becomes one
slash. -/
def collapseSlashes : List Char → List Char
  | [] => []
  | [c] => [c]
  | a :: b :: rest =>
    if a = '/' ∧ b = '/' then collapseSlashes (b :: rest)
    else a :: collapseSlashes (b :: rest)

/-- `strings.TrimSuffix(s, "/")`: drop one trailing slash if present. -/
def trimTrailingSlash (l : List Char) : List Char :=
  if l.getLast? = some '/' then l.dropLast else l

/-- `cleanPath` from the source: collapse multiple consecutive slashes
into one, then remove a trailing slash if any. -/
def cleanPath (path : String) : String :=
  String.mk (trimTrailingSlash (collapseSlashes path.data))

/-- Go struct `excludes` (the `-exclude` flag accumulator). -/
structure excludes where
  excls : List String
deriving DecidableEq, Repr

/-- `excludes.Set`: called once per `-exclude` flag occurrence; appends
the cleaned value (the `error` return is always `nil`). -/
def excludes.Set (e : excludes) (value : String) : excludes :=
  { excls := e.excls ++ [cleanPath value] }

/-- `excludes.Contains`: checks if the given path starts with any of
the known excludes. The query path is used as-is — it is *not* passed
through `cleanPath`. -/
def excludes.Contains (e : excludes) (path : String) : Bool :=
  e.excls.any (fun excl => strStartsWith path excl)

/-- An exclude set built from a list of flag values, in order. -/
def addAll (vs : List String) : excludes :=
  vs.foldl excludes.Set { excls := [] }

theorem addAll_excls_aux (vs : List String) :
    ∀ e : excludes, (vs.foldl excludes.Set e).excls = e.excls ++ vs.map cleanPath := by
  induction vs with
  | nil => intro e; simp
  | cons v vs ih =>
    intro e
    simp only [List.foldl_cons, List.map_cons]
    rw [ih]
    simp [excludes.Set]

theorem addAll_excls (vs : List String) :
    (addAll vs).excls = vs.map cleanPath := by
  simpa using addAll_excls_aux vs { excls := [] }

/-- C5 (counterexample): the prefix `"/a//b"` is normalized to
`"/a/b"` at `add` time, but the query path is not normalized: for
`p = "/a//b"` the claim predicts `contains p = true` (the normalized
prefix is a prefix of the normalized `p`), while the code returns
`false`. -/
theorem contains_counterexample :
    (excludes.Set { excls := [] } "/a//b").Contains "/a//b" = false ∧
    cleanPath "/a//b" = "/a/b" ∧
    strStartsWith (cleanPath "/a//b") (cleanPath "/a//b") = true :=
  ⟨rfl, rfl, rfl⟩

/-- C5 (amended): `contains(p)` is true iff some registered prefix,
normalized at `add` time (collapse repeated separators, strip trailing
separator), is a literal string-prefix of `p` itself — `p` is not
normalized at query time. The match is not segment-aware: the prefix
`"/sys"` also matches `"/system"`. -/
theorem contains_iff_registered_literal_match (vs : List String) (p : String) :
    ((addAll vs).Contains p = true ↔
      ∃ v ∈ vs, strStartsWith p (cleanPath v) = true) ∧
    (addAll ["/sys"]).Contains "/system" = true := by
  constructor
  · simp [excludes.Contains, addAll_excls, List.any_eq_true]
  · rfl

/-! ## Local filesystem model

The local mirror tree. Names within a real directory are unique, but
none of the proofs below needs that assumption. `filepath.Abs` is
modelled as the identity (paths are taken as already absolute). -/

/-- One node of the local filesystem: a regular file (modification
time, content bytes) or a directory (modification time, named
children). -/
inductive Node where
  | file (mtime : Nat) (content : List Nat)
  | dir (mtime : Nat) (children : List (String × Node))

/-- `os.FileInfo.ModTime`. -/
def Node.mtime : Node → Nat
  | .file m _ => m
  | .dir m _ => m

/-- `os.FileInfo.IsDir`. -/
def Node.isDir : Node → Bool
  | .file _ _ => false
  | .dir _ _ => true

/-- A local path, one segment per component:
`filepath.Join(p, n)` is `p ++ [n]`. -/
abbrev Path := List String

/-- First binding of `n` among a directory's children. -/
def lookupChild : List (String × Node) → String → Option Node
  | [], _ => none
  | c :: cs, n => if c.1 = n then some c.2 else lookupChild cs n

/-- Replace the first binding of `n`, or append a new one. -/
def setChild : List (String × Node) → String → Node → List (String × Node)
  | [], n, v => [(n, v)]
  | c :: cs, n, v => if c.1 = n then (n, v) :: cs else c :: setChild cs n v

/-- Remove the first binding of `n`. -/
def removeChild : List (String × Node) → String → List (String × Node)
  | [], _ => []
  | c :: cs, n => if c.1 = n then cs else c :: removeChild cs n

/-- Resolve a path from this node (an `os.Stat` that distinguishes
"not found" from the node found). -/
def Node.get : Path → Node → Option Node
  | [], fs => some fs
  | s :: p, .dir _ cs =>
    match lookupChild cs s with
    | some c => Node.get p c
    | none => none
  | _ :: _, .file _ _ => none

/-- `os.Create(path)` of a regular file: every ancestor must exist and
be a directory; an existing regular file at `path` is truncated (its
modification time becomes the current clock); an existing directory at
`path` makes the call fail. -/
def Node.createFile : Path → Nat → Node → Option Node
  | [], _, _ => none
  | [n], clock, fs =>
    match fs with
    | .file _ _ => none
    | .dir m cs =>
      match lookupChild cs n with
      | some (.dir _ _) => none
      | _ => some (.dir m (setChild cs n (.file clock [])))
  | s :: n :: p, clock, fs =>
    match fs with
    | .file _ _ => none
    | .dir m cs =>
      match lookupChild cs s with
      | some c =>
        match Node.createFile (n :: p) clock c with
        | some c2 => some (.dir m (setChild cs s c2))
        | none => none
      | none => none

/-- `File.Write` on the just-created file: replaces the content and
sets the modification time to the current clock. -/
def Node.writeFile : Path → Nat → List Nat → Node → Option Node
  | [], _, _, _ => none
  | [n], clock, body, fs =>
    match fs with
    | .file _ _ => none
    | .dir m cs =>
      match lookupChild cs n with
      | some (.file _ _) => some (.dir m (setChild cs n (.file clock body)))
      | _ => none
  | s :: n :: p, clock, body, fs =>
    match fs with
    | .file _ _ => none
    | .dir m cs =>
      match lookupChild cs s with
      | some c =>
        match Node.writeFile (n :: p) clock body c with
        | some c2 => some (.dir m (setChild cs s c2))
        | none => none
      | none => none

/-- `os.Chtimes(path, t, t)`: sets the modification time. The source
discards the returned error, so the model is total: a missing path is
a no-op. -/
def Node.chtimesAt : Path → Nat → Node → Node
  | [], _, fs => fs
  | [n], t, fs =>
    match fs with
    | .dir m cs =>
      match lookupChild cs n with
      | some (.file _ c) => .dir m (setChild cs n (.file t c))
      | some (.dir _ cc) => .dir m (setChild cs n (.dir t cc))
      | none => .dir m cs
    | f => f
  | s :: n :: p, t, fs =>
    match fs with
    | .dir m cs =>
      match lookupChild cs s with
      | some c => .dir m (setChild cs s (Node.chtimesAt (n :: p) t c))
      | none => .dir m cs
    | f => f

/-- `os.MkdirAll(path)`: creates every missing directory segment (new
directories get the current clock as modification time); succeeds if
the directory already exists; fails if any segment exists as a regular
file. -/
def Node.mkdirAll : Path → Nat → Node → Option Node
  | [], _, fs =>
    match fs with
    | .dir _ _ => some fs
    | .file _ _ => none
  | s :: p, clock, fs =>
    match fs with
    | .file _ _ => none
    | .dir m cs =>
      match lookupChild cs s with
      | some c =>
        match Node.mkdirAll p clock c with
        | some c2 => some (.dir m (setChild cs s c2))
        | none => none
      | none =>
        match Node.mkdirAll p clock (.dir clock []) with
        | some c2 => some (.dir m (setChild cs s c2))
        | none => none

/-- `os.RemoveAll(filepath.Join(dirPath, n))`: remove the whole
subtree bound to `n` inside the directory at `dirPath` (a no-op when
the path does not exist, like `os.RemoveAll`). -/
def Node.removeChildAt : Path → String → Node → Node
  | [], n, fs =>
    match fs with
    | .dir m cs => .dir m (removeChild cs n)
    | f => f
  | s :: p, n, fs =>
    match fs with
    | .dir m cs =>
      match lookupChild cs s with
      | some c => .dir m (setChild cs s (Node.removeChildAt p n c))
      | none => .dir m cs
    | f => f

/-- The children of the directory at `p` (empty if `p` is not a
directory). -/
def childrenAt (fs : Node) (p : Path) : List (String × Node) :=
  match fs.get p with
  | some (.dir _ cs) => cs
  | _ => []

/-! ### Association-list and path lemmas -/

theorem lookupChild_setChild_self (cs : List (String × Node)) (n : String) (v : Node) :
    lookupChild (setChild cs n v) n = some v := by
  induction cs with
  | nil => simp [setChild, lookupChild]
  | cons c cs ih =>
    by_cases h : c.1 = n
    · simp [setChild, lookupChild, h]
    · simp [setChild, lookupChild, h, ih]

theorem lookupChild_setChild_ne (cs : List (String × Node)) {n n' : String} (v : Node)
    (h : n' ≠ n) : lookupChild (setChild cs n v) n' = lookupChild cs n' := by
  induction cs with
  | nil =>
    simp only [setChild, lookupChild]
    rw [if_neg h.symm]
  | cons c cs ih =>
    by_cases hc : c.1 = n
    · have hcn' : ¬ c.1 = n' := fun h' => h.symm (hc.symm.trans h')
      simp only [setChild, if_pos hc, lookupChild]
      rw [if_neg h.symm, if_neg hcn']
    · simp only [setChild, if_neg hc, lookupChild]
      by_cases hc' : c.1 = n'
      · rw [if_pos hc', if_pos hc']
      · rw [if_neg hc', if_neg hc', ih]

theorem lookupChild_removeChild_ne (cs : List (String × Node)) {n n' : String}
    (h : n' ≠ n) : lookupChild (removeChild cs n) n' = lookupChild cs n' := by
  induction cs with
  | nil => simp [removeChild]
  | cons c cs ih =>
    by_cases hc : c.1 = n
    · have hcn' : ¬ c.1 = n' := fun h' => h.symm (hc.symm.trans h')
      simp only [removeChild, if_pos hc, lookupChild]
      rw [if_neg hcn']
    · simp only [removeChild, if_neg hc, lookupChild]
      by_cases hc' : c.1 = n'
      · rw [if_pos hc', if_pos hc']
      · rw [if_neg hc', if_neg hc', ih]

theorem mem_removeChild_of_ne {cs : List (String × Node)} {n : String} {c : Node}
    {n' : String} (hmem : (n, c) ∈ cs) (h : n ≠ n') :
    (n, c) ∈ removeChild cs n' := by
  induction cs with
  | nil => cases hmem
  | cons b bs ih =>
    rcases List.mem_cons.mp hmem with rfl | hmem
    · simp only [removeChild, if_neg h]
      exact List.mem_cons_self _ _
    · by_cases hb : b.1 = n'
      · simpa [removeChild, hb] using hmem
      · simp only [removeChild, if_neg hb]
        exact List.mem_cons_of_mem b (ih hmem)

theorem mem_removeChild_of_lookup_ne {cs : List (String × Node)} {n : String} {c c' : Node}
    (hmem : (n, c) ∈ cs) (hlook : lookupChild cs n = some c') (hne : c ≠ c') :
    (n, c) ∈ removeChild cs n := by
  induction cs with
  | nil => cases hmem
  | cons b bs ih =>
    by_cases hb : b.1 = n
    · simp only [lookupChild, if_pos hb] at hlook
      simp only [removeChild, if_pos hb]
      rcases List.mem_cons.mp hmem with rfl | hmem
      · exact absurd (Option.some.inj hlook) hne
      · exact hmem
    · simp only [lookupChild, if_neg hb] at hlook
      simp only [removeChild, if_neg hb]
      rcases List.mem_cons.mp hmem with rfl | hmem
      · exact absurd rfl hb
      · exact List.mem_cons_of_mem b (ih hmem hlook)

theorem get_append (p q : Path) (fs : Node) :
    fs.get (p ++ q) = (fs.get p).bind (Node.get q) := by
  induction p generalizing fs with
  | nil => simp [Node.get]
  | cons s p ih =>
    cases fs with
    | file m c => simp [Node.get]
    | dir m cs =>
      simp only [List.cons_append, Node.get]
      cases lookupChild cs s with
      | none => simp
      | some c => simpa using ih c

theorem removeChildAt_get_self {fs : Node} {p : Path} {m : Nat}
    {cs : List (String × Node)} (h : fs.get p = some (.dir m cs)) (n : String) :
    (fs.removeChildAt p n).get p = some (.dir m (removeChild cs n)) := by
  induction p generalizing fs with
  | nil =>
    cases fs with
    | file m' c' => simp [Node.get] at h
    | dir m' cs' =>
      simp only [Node.get, Option.some.injEq] at h
      cases h
      simp [Node.removeChildAt, Node.get]
  | cons s p ih =>
    cases fs with
    | file m' c' => simp [Node.get] at h
    | dir m' cs' =>
      simp only [Node.get] at h
      cases hl : lookupChild cs' s with
      | none => rw [hl] at h; simp at h
      | some c =>
        rw [hl] at h
        simp only at h
        simp only [Node.removeChildAt, hl, Node.get, lookupChild_setChild_self]
        exact ih h

/-! ## Environment of fallible OS and network calls -/

/-- Oracles driving the fallible calls the source checks, plus the
wall clock. A `true` from a `...Fail` oracle means that call returns an
error (beyond the tree-shape failures the model derives itself). -/
structure Env where
  /-- `download(baseURL + fileDownloadURL + url.QueryEscape(remote))`,
  keyed by the unescaped remote path. -/
  download : String → Except String (List Nat)
  /-- `os.Stat(p)` returns an error that is not `IsNotExist`. -/
  statFail : Path → Bool
  /-- `os.MkdirAll(p)` fails. -/
  mkdirFail : Path → Bool
  /-- `os.Create(p)` fails. -/
  createFail : Path → Bool
  /-- `File.Write` on the file at `p` fails. -/
  writeFail : Path → Bool
  /-- `ioutil.ReadDir(p)` fails. -/
  readDirFail : Path → Bool
  /-- Current time, stamped on entries created by `os.Create` and
  `os.MkdirAll`. -/
  clock : Nat

/-- An environment in which every OS call succeeds and every download
returns empty content, at clock 0. -/
def envOk : Env :=
  { download := fun _ => .ok [], statFail := fun _ => false,
    mkdirFail := fun _ => false, createFail := fun _ => false,
    writeFail := fun _ => false, readDirFail := fun _ => false, clock := 0 }

/-! ## Stale file reclaimer: `isManagedDirectory`, `removeDeletedFiles` -/

/-- `isManagedDirectory(basePath, f)` from the source: `f` is the
`os.FileInfo` of one child from the `ReadDir` snapshot (here its name
and node), the marker probe is a fresh `os.Stat` against the current
filesystem. Returns `false` on any error. -/
def isManagedDirectory (env : Env) (basePath : Path) (name : String)
    (f : Node) (fs : Node) : Bool :=
  if !f.isDir then false
  else if env.statFail (basePath ++ [name, dirMarker]) then false
  else
    match fs.get (basePath ++ [name, dirMarker]) with
    | none => false
    | some _ => true

/-- The loop body of `removeDeletedFiles` over the `ReadDir` snapshot:
children absent from the remote name set are deleted unless the skip
guard `!isManagedDirectory(outDir, f) || f.Name() == dirMarker` fires. -/
def reclaimLoop (env : Env) (names : List String) (outDir : Path) :
    List (String × Node) → Node → Option String × Node
  | [], fs => (none, fs)
  | (n, c) :: rest, fs =>
    if names.contains n then reclaimLoop env names outDir rest fs
    else if isManagedDirectory env outDir n c fs = false ∨ n = dirMarker then
      reclaimLoop env names outDir rest fs
    else
      reclaimLoop env names outDir rest (fs.removeChildAt outDir n)

/-- `removeDeletedFiles` from the source: build the name set of the
listing, `ReadDir` the local directory (the snapshot is sorted by name,
as `ioutil.ReadDir` sorts), and run the deletion loop. -/
def removeDeletedFiles (env : Env) (fl : filelist) (outDir : Path) (fs : Node) :
    Option String × Node :=
  let existingFiles := fl.Files.map (fun f => f.name)
  if env.readDirFail outDir then (some "readdir", fs)
  else
    match fs.get outDir with
    | some (.dir _ cs) =>
      reclaimLoop env existingFiles outDir
        (sortStable (fun a b => strLt a.1 b.1) cs) fs
    | _ => (some "readdir", fs)

/-- A directory node that directly contains the marker entry. -/
def managedShape : Node → Bool
  | .dir _ cc => (lookupChild cc dirMarker).isSome
  | .file _ _ => false

theorem lookupChild_isSome_of_mem {cs : List (String × Node)} {n : String} {c : Node}
    (hmem : (n, c) ∈ cs) : ∃ c', lookupChild cs n = some c' := by
  induction cs with
  | nil => cases hmem
  | cons b bs ih =>
    by_cases hb : b.1 = n
    · exact ⟨b.2, by simp [lookupChild, hb]⟩
    · rcases List.mem_cons.mp hmem with rfl | hmem
      · exact absurd rfl hb
      · simpa [lookupChild, hb] using ih hmem

/-- If the skipped guard does not fire for a child named `n` whose
current first binding is `c`, that binding is a directory with its own
marker. -/
theorem marker_of_managed {env : Env} {outDir : Path} {n : String}
    {c₁ fs : Node} {m0 : Nat} {cs : List (String × Node)} {c' : Node}
    (hget : fs.get outDir = some (.dir m0 cs))
    (hlook : lookupChild cs n = some c')
    (hman : isManagedDirectory env outDir n c₁ fs = true) :
    managedShape c' = true := by
  unfold isManagedDirectory at hman
  by_cases hd : c₁.isDir = true
  · rw [if_neg (by simp [hd])] at hman
    by_cases hsf : env.statFail (outDir ++ [n, dirMarker]) = true
    · rw [if_pos hsf] at hman
      exact absurd hman (by simp)
    · rw [if_neg hsf] at hman
      have hrew : fs.get (outDir ++ [n, dirMarker]) =
          Node.get [n, dirMarker] (Node.dir m0 cs) := by
        have h2 := get_append outDir [n, dirMarker] fs
        rw [hget] at h2
        simpa using h2
      rw [hrew] at hman
      simp only [Node.get, hlook] at hman
      cases c' with
      | file mt ct => simp [Node.get] at hman
      | dir mt cc =>
        simp only [Node.get] at hman
        cases hmm : lookupChild cc dirMarker with
        | none => rw [hmm] at hman; simp at hman
        | some y => simp [managedShape, hmm]
  · have hd' : c₁.isDir = false := by
      revert hd; cases c₁.isDir <;> simp
    rw [if_pos (by simp [hd'])] at hman
    exact absurd hman (by simp)

/-- Core preservation property of the deletion loop: a child binding
that is the marker entry, or is not a marker-bearing directory, is
still present (unchanged) among the directory's children after the
loop, whatever the snapshot. -/
theorem reclaimLoop_keeps (env : Env) (names : List String) (outDir : Path)
    {n : String} {c : Node}
    (hprot : n = dirMarker ∨ managedShape c = false) :
    ∀ (snap : List (String × Node)) (fs : Node) (m0 : Nat)
      (cs : List (String × Node)),
      fs.get outDir = some (.dir m0 cs) → (n, c) ∈ cs →
      ∃ cs2, (reclaimLoop env names outDir snap fs).2.get outDir =
          some (.dir m0 cs2) ∧ (n, c) ∈ cs2 := by
  intro snap
  induction snap with
  | nil =>
    intro fs m0 cs hget hmem
    exact ⟨cs, hget, hmem⟩
  | cons b rest ih =>
    intro fs m0 cs hget hmem
    obtain ⟨n₁, c₁⟩ := b
    simp only [reclaimLoop]
    by_cases h1 : names.contains n₁ = true
    · rw [if_pos h1]
      exact ih fs m0 cs hget hmem
    · rw [if_neg h1]
      by_cases h2 : isManagedDirectory env outDir n₁ c₁ fs = false ∨ n₁ = dirMarker
      · rw [if_pos h2]
        exact ih fs m0 cs hget hmem
      · rw [if_neg h2]
        push_neg at h2
        obtain ⟨hman, hnm⟩ := h2
        replace hman : isManagedDirectory env outDir n₁ c₁ fs = true := by
          revert hman; cases isManagedDirectory env outDir n₁ c₁ fs <;> simp
        have hget2 := removeChildAt_get_self hget n₁
        by_cases hnn : n₁ = n
        · subst hnn
          obtain ⟨c', hlook⟩ := lookupChild_isSome_of_mem hmem
          have hms := marker_of_managed hget hlook hman
          by_cases hcc : c = c'
          · subst hcc
            rcases hprot with h | h
            · exact absurd h hnm
            · exact absurd hms (by simp [h])
          · exact ih _ m0 _ hget2 (mem_removeChild_of_lookup_ne hmem hlook hcc)
        · have hmem2 : (n, c) ∈ removeChild cs n₁ :=
            mem_removeChild_of_ne hmem (fun h => hnn h.symm)
          exact ih _ m0 _ hget2 hmem2

/-- C4: the reclaimer never deletes the marker entry itself, nor a
local directory lacking its own marker, even when the entry's name is
absent from the remote listing: any such child binding of `outDir` is
still present after `removeDeletedFiles`, whatever the listing. -/
theorem reclaimer_never_deletes_marker_or_unmanaged (env : Env) (fl : filelist)
    (outDir : Path) (fs : Node) {n : String} {c : Node}
    (hmem : (n, c) ∈ childrenAt fs outDir)
    (hprot : n = dirMarker ∨ (c.isDir = true ∧ managedShape c = false)) :
    (n, c) ∈ childrenAt (removeDeletedFiles env fl outDir fs).2 outDir := by
  have hprot2 : n = dirMarker ∨ managedShape c = false := by
    rcases hprot with h | h
    · exact Or.inl h
    · exact Or.inr h.2
  unfold removeDeletedFiles
  by_cases hrd : env.readDirFail outDir = true
  · rw [if_pos hrd]
    exact hmem
  · rw [if_neg hrd]
    unfold childrenAt at hmem
    cases hget : fs.get outDir with
    | none => rw [hget] at hmem; cases hmem
    | some node =>
      rw [hget] at hmem
      cases node with
      | file mt ct => cases hmem
      | dir m0 cs =>
        obtain ⟨cs2, hget2, hmem2⟩ := reclaimLoop_keeps env
          (fl.Files.map (fun f => f.name)) outDir hprot2
          (sortStable (fun a b => strLt a.1 b.1) cs) fs m0 cs hget hmem
        simp only [childrenAt, hget2]
        exact hmem2

/-- Witness for C4: a directory `keep` without a marker, absent from
the (empty) remote listing, survives the deletion pass. -/
theorem reclaimer_never_deletes_marker_or_unmanaged_witness :
    ("keep", Node.dir 7 [("inner.txt", Node.file 1 [2])]) ∈
      childrenAt (removeDeletedFiles envOk { Dir := "0:/sys", Files := [], next := 0 }
        ["backup"]
        (Node.dir 0 [("backup", Node.dir 0
          [(".duetbackup", Node.file 0 []),
           ("keep", Node.dir 7 [("inner.txt", Node.file 1 [2])])])])).2 ["backup"] :=
  reclaimer_never_deletes_marker_or_unmanaged envOk
    { Dir := "0:/sys", Files := [], next := 0 } ["backup"]
    (Node.dir 0 [("backup", Node.dir 0
      [(".duetbackup", Node.file 0 []),
       ("keep", Node.dir 7 [("inner.txt", Node.file 1 [2])])])])
    (by exact List.mem_cons_of_mem _ (List.mem_cons_self _ _))
    (Or.inr ⟨rfl, rfl⟩)

/-- C10: the reclaimer never removes a child that is not a
marker-bearing directory — in particular it never removes any regular
file, even one absent from the remote listing: the binding is still
present, unchanged, after `removeDeletedFiles`. -/
theorem reclaimer_leaves_nonmanaged_children_untouched (env : Env) (fl : filelist)
    (outDir : Path) (fs : Node) {n : String} {c : Node}
    (hmem : (n, c) ∈ childrenAt fs outDir)
    (hshape : managedShape c = false) :
    (n, c) ∈ childrenAt (removeDeletedFiles env fl outDir fs).2 outDir := by
  unfold removeDeletedFiles
  by_cases hrd : env.readDirFail outDir = true
  · rw [if_pos hrd]
    exact hmem
  · rw [if_neg hrd]
    unfold childrenAt at hmem
    cases hget : fs.get outDir with
    | none => rw [hget] at hmem; cases hmem
    | some node =>
      rw [hget] at hmem
      cases node with
      | file mt ct => cases hmem
      | dir m0 cs =>
        obtain ⟨cs2, hget2, hmem2⟩ := reclaimLoop_keeps env
          (fl.Files.map (fun f => f.name)) outDir (Or.inr hshape)
          (sortStable (fun a b => strLt a.1 b.1) cs) fs m0 cs hget hmem
        simp only [childrenAt, hget2]
        exact hmem2

/-- Witness for C10: a stale regular file `a.txt`, absent from the
remote listing, is still present after the deletion pass. -/
theorem reclaimer_leaves_nonmanaged_children_untouched_witness :
    ("a.txt", Node.file 5 [1]) ∈
      childrenAt (removeDeletedFiles envOk { Dir := "0:/sys", Files := [], next := 0 }
        ["backup"]
        (Node.dir 0 [("backup", Node.dir 0
          [(".duetbackup", Node.file 0 []),
           ("a.txt", Node.file 5 [1])])])).2 ["backup"] :=
  reclaimer_leaves_nonmanaged_children_untouched envOk
    { Dir := "0:/sys", Files := [], next := 0 } ["backup"]
    (Node.dir 0 [("backup", Node.dir 0
      [(".duetbackup", Node.file 0 []),
       ("a.txt", Node.file 5 [1])])])
    (by exact List.mem_cons_of_mem _ (List.mem_cons_self _ _))
    rfl

/-- The failing input for C2: the mirror directory holds its marker
and one stale regular file `a.txt`; the remote listing is empty. -/
def fsStale : Node :=
  Node.dir 0 [("backup", Node.dir 0
    [(".duetbackup", Node.file 0 []), ("a.txt", Node.file 5 [1])])]

/-- C2: evaluated at the failing input, the deletion pass succeeds yet
leaves the stale regular file `a.txt` in place (the filesystem is
returned unchanged), although `a.txt` is absent from the listing's name
set and is neither the marker entry nor a directory lacking a marker:
the skip guard `!isManagedDirectory(outDir, f) || f.Name() == dirMarker`
is true for every non-directory child, so no regular file is ever
deleted. -/
theorem removeDeletedFiles_keeps_stale_regular_file :
    removeDeletedFiles envOk { Dir := "0:/sys", Files := [], next := 0 }
        ["backup"] fsStale = (none, fsStale) ∧
    lookupChild (childrenAt fsStale ["backup"]) "a.txt" = some (.file 5 [1]) :=
  ⟨rfl, rfl⟩

/-! ## Local mirror updater: `ensureOutDirExists`, `updateLocalFiles` -/

/-- `ensureOutDirExists(outDir)` from the source. `filepath.Abs` is the
identity here (paths are taken as absolute). `os.Stat` the directory
(a non-`IsNotExist` error is fatal); create it with `os.MkdirAll` when
it does not exist; then unconditionally `os.Create` the (empty) marker
file inside it. -/
def ensureOutDirExists (env : Env) (outDir : Path) (fs : Node) :
    Option String × Node :=
  if env.statFail outDir then (some "stat", fs)
  else
    match (match fs.get outDir with
      | none =>
        if env.mkdirFail outDir then none
        else fs.mkdirAll outDir env.clock
      | some _ => some fs) with
    | none => (some "mkdir", fs)
    | some fs1 =>
      if env.createFail (outDir ++ [dirMarker]) then (some "create", fs1)
      else
        match fs1.createFile (outDir ++ [dirMarker]) env.clock with
        | none => (some "create", fs1)
        | some fs2 => (none, fs2)

/-- The staleness test of `updateLocalFiles`:
`fi == nil || fi.ModTime().Before(file.Date.Time)`. -/
def needsDownload (fi : Option Node) (date : Nat) : Bool :=
  match fi with
  | none => true
  | some n => decide (n.mtime < date)

/-- The per-entry loop of `updateLocalFiles`, in listing order.
Returns the error outcome (`none` = success), the resulting
filesystem, and the log of remote paths for which a download was
attempted, in order. On a fatal error the function returns at once:
no later entry is examined. -/
def processFiles (env : Env) (flDir : String) (outDir : Path) (excls : excludes) :
    List file → Node → Option String × Node × List String
  | [], fs => (none, fs, [])
  | f :: rest, fs =>
    if f.type = typeDirectory then processFiles env flDir outDir excls rest fs
    else
      let remoteFilename := flDir ++ "/" ++ f.name
      if excls.Contains remoteFilename then
        processFiles env flDir outDir excls rest fs
      else
        let fileName := outDir ++ [f.name]
        if env.statFail fileName then (some "stat", fs, [])
        else if needsDownload (fs.get fileName) f.date then
          match env.download remoteFilename with
          | .error e => (some e, fs, [remoteFilename])
          | .ok body =>
            if env.createFail fileName then (some "create", fs, [remoteFilename])
            else
              match fs.createFile fileName env.clock with
              | none => (some "create", fs, [remoteFilename])
              | some fs1 =>
                if env.writeFail fileName then (some "write", fs1, [remoteFilename])
                else
                  match fs1.writeFile fileName env.clock body with
                  | none => (some "write", fs1, [remoteFilename])
                  | some fs2 =>
                    let fs3 := fs2.chtimesAt fileName f.date
                    let r := processFiles env flDir outDir excls rest fs3
                    (r.1, r.2.1, remoteFilename :: r.2.2)
        else processFiles env flDir outDir excls rest fs

/-- `updateLocalFiles` from the source: ensure the output directory and
its marker, then process the listing's entries in order. -/
def updateLocalFiles (env : Env) (fl : filelist) (outDir : Path) (excls : excludes)
    (fs : Node) : Option String × Node × List String :=
  match ensureOutDirExists env outDir fs with
  | (some e, fs1) => (some e, fs1, [])
  | (none, fs1) => processFiles env fl.Dir outDir excls fl.Files fs1

/-! ### Effect of the file operations at a directory's children -/

theorem setChild_setChild (cs : List (String × Node)) (n : String) (v v' : Node) :
    setChild (setChild cs n v) n v' = setChild cs n v' := by
  induction cs with
  | nil => simp [setChild]
  | cons c cs ih =>
    by_cases hc : c.1 = n
    · simp [setChild, hc]
    · simp [setChild, hc, ih]

theorem lookupChild_setChild_eq_ne (cs : List (String × Node)) (n q : String) (v : Node) :
    lookupChild (setChild cs n v) q =
      if n = q then some v else lookupChild cs q := by
  by_cases h : n = q
  · subst h; simp [lookupChild_setChild_self]
  · rw [if_neg h, lookupChild_setChild_ne cs v (fun h' => h h'.symm)]

theorem createFile_cons (s : String) (rest : Path) (hrest : rest ≠ [])
    (clock : Nat) (m : Nat) (cs : List (String × Node)) :
    Node.createFile (s :: rest) clock (.dir m cs) =
      (match lookupChild cs s with
      | some c =>
        match Node.createFile rest clock c with
        | some c2 => some (.dir m (setChild cs s c2))
        | none => none
      | none => none) := by
  cases rest with
  | nil => exact absurd rfl hrest
  | cons y ys => rfl

theorem writeFile_cons (s : String) (rest : Path) (hrest : rest ≠ [])
    (clock : Nat) (body : List Nat) (m : Nat) (cs : List (String × Node)) :
    Node.writeFile (s :: rest) clock body (.dir m cs) =
      (match lookupChild cs s with
      | some c =>
        match Node.writeFile rest clock body c with
        | some c2 => some (.dir m (setChild cs s c2))
        | none => none
      | none => none) := by
  cases rest with
  | nil => exact absurd rfl hrest
  | cons y ys => rfl

theorem chtimesAt_cons (s : String) (rest : Path) (hrest : rest ≠ [])
    (t : Nat) (m : Nat) (cs : List (String × Node)) :
    Node.chtimesAt (s :: rest) t (.dir m cs) =
      (match lookupChild cs s with
      | some c => .dir m (setChild cs s (Node.chtimesAt rest t c))
      | none => .dir m cs) := by
  cases rest with
  | nil => exact absurd rfl hrest
  | cons y ys => rfl

theorem createFile_at {p : Path} :
    ∀ {fs : Node} {m : Nat} {cs : List (String × Node)},
      fs.get p = some (.dir m cs) →
      ∀ (n : String) (clock : Nat),
        (∀ mm cc, lookupChild cs n ≠ some (.dir mm cc)) →
        ∃ fs', fs.createFile (p ++ [n]) clock = some fs' ∧
          fs'.get p = some (.dir m (setChild cs n (.file clock []))) := by
  induction p with
  | nil =>
    intro fs m cs hget n clock hnd
    cases fs with
    | file mt ct => simp [Node.get] at hget
    | dir m' cs' =>
      simp only [Node.get, Option.some.injEq, Node.dir.injEq] at hget
      obtain ⟨rfl, rfl⟩ := hget
      refine ⟨.dir m' (setChild cs' n (.file clock [])), ?_, rfl⟩
      show Node.createFile [n] clock (.dir m' cs') = _
      cases hl : lookupChild cs' n with
      | none => simp [Node.createFile, hl]
      | some c =>
        cases c with
        | file mt ct => simp [Node.createFile, hl]
        | dir mm cc => exact absurd hl (hnd mm cc)
  | cons s p ih =>
    intro fs m cs hget n clock hnd
    cases fs with
    | file mt ct => simp [Node.get] at hget
    | dir m' cs' =>
      simp only [Node.get] at hget
      cases hl : lookupChild cs' s with
      | none => rw [hl] at hget; simp at hget
      | some c =>
        rw [hl] at hget
        simp only at hget
        obtain ⟨c2, hc2, hc2get⟩ := ih hget n clock hnd
        refine ⟨.dir m' (setChild cs' s c2), ?_, ?_⟩
        · rw [List.cons_append,
            createFile_cons s (p ++ [n]) (by simp) clock m' cs']
          simp [hl, hc2]
        · simp only [Node.get, lookupChild_setChild_self]
          exact hc2get

theorem createFile_none_of_dirchild {p : Path} :
    ∀ {fs : Node} {m : Nat} {cs : List (String × Node)},
      fs.get p = some (.dir m cs) →
      ∀ {n : String} {mm : Nat} {cc : List (String × Node)} (clock : Nat),
        lookupChild cs n = some (.dir mm cc) →
        fs.createFile (p ++ [n]) clock = none := by
  induction p with
  | nil =>
    intro fs m cs hget n mm cc clock hl
    cases fs with
    | file mt ct => simp [Node.get] at hget
    | dir m' cs' =>
      simp only [Node.get, Option.some.injEq, Node.dir.injEq] at hget
      obtain ⟨rfl, rfl⟩ := hget
      simp [Node.createFile, hl]
  | cons s p ih =>
    intro fs m cs hget n mm cc clock hl
    cases fs with
    | file mt ct => simp [Node.get] at hget
    | dir m' cs' =>
      simp only [Node.get] at hget
      cases hls : lookupChild cs' s with
      | none => rw [hls] at hget; simp at hget
      | some c =>
        rw [hls] at hget
        simp only at hget
        rw [List.cons_append,
          createFile_cons s (p ++ [n]) (by simp) clock m' cs']
        simp [hls, ih hget clock hl]

theorem writeFile_at {p : Path} :
    ∀ {fs : Node} {m : Nat} {cs : List (String × Node)},
      fs.get p = some (.dir m cs) →
      ∀ {n : String} {mt : Nat} {ct : List Nat} (clock : Nat) (body : List Nat),
        lookupChild cs n = some (.file mt ct) →
        ∃ fs', fs.writeFile (p ++ [n]) clock body = some fs' ∧
          fs'.get p = some (.dir m (setChild cs n (.file clock body))) := by
  induction p with
  | nil =>
    intro fs m cs hget n mt ct clock body hl
    cases fs with
    | file mt' ct' => simp [Node.get] at hget
    | dir m' cs' =>
      simp only [Node.get, Option.some.injEq, Node.dir.injEq] at hget
      obtain ⟨rfl, rfl⟩ := hget
      refine ⟨.dir m' (setChild cs' n (.file clock body)), ?_, rfl⟩
      simp [Node.writeFile, hl]
  | cons s p ih =>
    intro fs m cs hget n mt ct clock body hl
    cases fs with
    | file mt' ct' => simp [Node.get] at hget
    | dir m' cs' =>
      simp only [Node.get] at hget
      cases hls : lookupChild cs' s with
      | none => rw [hls] at hget; simp at hget
      | some c =>
        rw [hls] at hget
        simp only at hget
        obtain ⟨c2, hc2, hc2get⟩ := ih hget clock body hl
        refine ⟨.dir m' (setChild cs' s c2), ?_, ?_⟩
        · rw [List.cons_append,
            writeFile_cons s (p ++ [n]) (by simp) clock body m' cs']
          simp [hls, hc2]
        · simp only [Node.get, lookupChild_setChild_self]
          exact hc2get

theorem chtimesAt_at {p : Path} :
    ∀ {fs : Node} {m : Nat} {cs : List (String × Node)},
      fs.get p = some (.dir m cs) →
      ∀ {n : String} {mt : Nat} {ct : List Nat} (t : Nat),
        lookupChild cs n = some (.file mt ct) →
        ∃ fs', fs.chtimesAt (p ++ [n]) t = fs' ∧
          fs'.get p = some (.dir m (setChild cs n (.file t ct))) := by
  induction p with
  | nil =>
    intro fs m cs hget n mt ct t hl
    cases fs with
    | file mt' ct' => simp [Node.get] at hget
    | dir m' cs' =>
      simp only [Node.get, Option.some.injEq, Node.dir.injEq] at hget
      obtain ⟨rfl, rfl⟩ := hget
      refine ⟨.dir m' (setChild cs' n (.file t ct)), ?_, rfl⟩
      simp [Node.chtimesAt, hl]
  | cons s p ih =>
    intro fs m cs hget n mt ct t hl
    cases fs with
    | file mt' ct' => simp [Node.get] at hget
    | dir m' cs' =>
      simp only [Node.get] at hget
      cases hls : lookupChild cs' s with
      | none => rw [hls] at hget; simp at hget
      | some c =>
        rw [hls] at hget
        simp only at hget
        obtain ⟨c2, hc2, hc2get⟩ := ih hget t hl
        refine ⟨.dir m' (setChild cs' s c2), ?_, ?_⟩
        · rw [List.cons_append,
            chtimesAt_cons s (p ++ [n]) (by simp) t m' cs']
          simp [hls, hc2]
        · simp only [Node.get, lookupChild_setChild_self]
          exact hc2get

/-! ### `os.MkdirAll` and `ensureOutDirExists` -/

theorem mkdirAll_ok {p : Path} :
    ∀ {fs : Node} (clock : Nat),
      (∀ q : Path, q <+: p → fs.get q = none ∨ ∃ m cs, fs.get q = some (.dir m cs)) →
      ∃ fs' m cs, fs.mkdirAll p clock = some fs' ∧
        fs'.get p = some (.dir m cs) ∧
        (fs.get p = some (.dir m cs) ∨ cs = []) := by
  induction p with
  | nil =>
    intro fs clock hshape
    cases fs with
    | file mt ct =>
      rcases hshape [] List.nil_prefix with h | ⟨m, cs, h⟩ <;>
        simp [Node.get] at h
    | dir m' cs' =>
      exact ⟨.dir m' cs', m', cs', rfl, rfl, Or.inl rfl⟩
  | cons s p ih =>
    intro fs clock hshape
    cases fs with
    | file mt ct =>
      rcases hshape [] List.nil_prefix with h | ⟨m, cs, h⟩ <;>
        simp [Node.get] at h
    | dir m' cs' =>
      cases hl : lookupChild cs' s with
      | some c =>
        have hc : ∀ q, q <+: p →
            c.get q = none ∨ ∃ m cs, c.get q = some (.dir m cs) := by
          intro q hq
          have h2 := hshape (s :: q) (List.cons_prefix_cons.mpr ⟨rfl, hq⟩)
          simpa [Node.get, hl] using h2
        obtain ⟨c2, m2, cs2, hmk, hget2, hdisj⟩ := ih clock hc
        refine ⟨.dir m' (setChild cs' s c2), m2, cs2, ?_, ?_, ?_⟩
        · simp [Node.mkdirAll, hl, hmk]
        · simp [Node.get, lookupChild_setChild_self, hget2]
        · rcases hdisj with h | h
          · left; simp [Node.get, hl, h]
          · right; exact h
      | none =>
        have hc : ∀ q, q <+: p →
            (Node.dir clock []).get q = none ∨
            ∃ m cs, (Node.dir clock []).get q = some (.dir m cs) := by
          intro q _
          cases q with
          | nil => exact Or.inr ⟨clock, [], rfl⟩
          | cons x xs => exact Or.inl (by simp [Node.get, lookupChild])
        obtain ⟨c2, m2, cs2, hmk, hget2, hdisj⟩ := ih clock hc
        refine ⟨.dir m' (setChild cs' s c2), m2, cs2, ?_, ?_, ?_⟩
        · simp [Node.mkdirAll, hl, hmk]
        · simp [Node.get, lookupChild_setChild_self, hget2]
        · right
          rcases hdisj with h | h
          · cases p with
            | nil =>
              simp only [Node.get, Option.some.injEq] at h
              cases h
              rfl
            | cons x xs => simp [Node.get, lookupChild] at h
          · exact h

/-- Re-visiting an existing directory: the marker is (re)created with
the current clock, and nothing else among the children changes. -/
theorem ensure_on_existing {env : Env} {outDir : Path} {fs : Node} {m : Nat}
    {cs : List (String × Node)}
    (hget : fs.get outDir = some (.dir m cs))
    (hnd : ∀ mm cc, lookupChild cs dirMarker ≠ some (.dir mm cc))
    (hstat : env.statFail outDir = false)
    (hcr : env.createFail (outDir ++ [dirMarker]) = false) :
    ∃ fs2, ensureOutDirExists env outDir fs = (none, fs2) ∧
      fs2.get outDir = some (.dir m (setChild cs dirMarker (.file env.clock []))) := by
  obtain ⟨fs2, hc, hcget⟩ := createFile_at hget dirMarker env.clock hnd
  refine ⟨fs2, ?_, hcget⟩
  simp [ensureOutDirExists, hstat, hget, hcr, hc]

/-- C9: on every visit, `ensureOutDirExists` succeeds whether or not
`localDir` already exists (creating it, with all missing parent
segments, when absent) and unconditionally writes the (empty) marker
entry inside it — afterwards the directory is managed. Hypotheses: the
OS calls involved do not fail, no path segment on the way is occupied
by a regular file, and no *directory* named like the marker sits inside
`localDir` (either would make an OS call fail). -/
theorem ensure_creates_dir_and_marker (env : Env) (outDir : Path) (fs : Node)
    (hshape : ∀ q, q <+: outDir →
      fs.get q = none ∨ ∃ m cs, fs.get q = some (.dir m cs))
    (hnd : ∀ m cs, fs.get outDir = some (.dir m cs) →
      ∀ mm cc, lookupChild cs dirMarker ≠ some (.dir mm cc))
    (hstat : env.statFail outDir = false)
    (hmk : env.mkdirFail outDir = false)
    (hcr : env.createFail (outDir ++ [dirMarker]) = false) :
    ∃ fs2, ensureOutDirExists env outDir fs = (none, fs2) ∧
      (∃ m cs, fs2.get outDir = some (.dir m cs) ∧
        lookupChild cs dirMarker = some (.file env.clock [])) ∧
      fs2.get (outDir ++ [dirMarker]) = some (.file env.clock []) := by
  cases hfi : fs.get outDir with
  | some node =>
    rcases hshape outDir (List.prefix_refl _) with h | ⟨m, cs, h⟩
    · rw [hfi] at h; cases h
    · rw [hfi] at h
      cases h
      obtain ⟨fs2, hc, hcget⟩ := createFile_at hfi dirMarker env.clock (hnd _ _ hfi)
      refine ⟨fs2, ?_, ⟨m, _, hcget, lookupChild_setChild_self _ _ _⟩, ?_⟩
      · simp [ensureOutDirExists, hstat, hfi, hcr, hc]
      · have h2 := get_append outDir [dirMarker] fs2
        rw [hcget] at h2
        simpa [Node.get, lookupChild_setChild_self] using h2
  | none =>
    obtain ⟨fs1, m2, cs2, hmk1, hget1, hdisj⟩ := mkdirAll_ok env.clock hshape
    have hcs2 : cs2 = [] := by
      rcases hdisj with h | h
      · rw [hfi] at h; cases h
      · exact h
    subst hcs2
    obtain ⟨fs2, hc, hcget⟩ := createFile_at hget1 dirMarker env.clock
      (by intro mm cc h; simp [lookupChild] at h)
    refine ⟨fs2, ?_, ⟨m2, _, hcget, lookupChild_setChild_self _ _ _⟩, ?_⟩
    · simp [ensureOutDirExists, hstat, hfi, hmk, hmk1, hc, hcr]
    · have h2 := get_append outDir [dirMarker] fs2
      rw [hcget] at h2
      simpa [Node.get, lookupChild_setChild_self] using h2

/-- Witness for C9: `backup` already exists (without marker); the
visit succeeds and the marker is written. -/
theorem ensure_creates_dir_and_marker_witness :
    ∃ fs2, ensureOutDirExists envOk ["backup"]
        (Node.dir 0 [("backup", Node.dir 3 [("x.txt", Node.file 1 [2])])]) =
        (none, fs2) ∧
      (∃ m cs, fs2.get ["backup"] = some (.dir m cs) ∧
        lookupChild cs dirMarker = some (.file envOk.clock [])) ∧
      fs2.get (["backup"] ++ [dirMarker]) = some (.file envOk.clock []) :=
  ensure_creates_dir_and_marker envOk ["backup"]
    (Node.dir 0 [("backup", Node.dir 3 [("x.txt", Node.file 1 [2])])])
    (by
      intro q hq
      obtain ⟨t, ht⟩ := hq
      cases q with
      | nil => exact Or.inr ⟨0, _, rfl⟩
      | cons a as =>
        simp only [List.cons_append, List.cons.injEq] at ht
        obtain ⟨rfl, ht⟩ := ht
        obtain ⟨rfl, rfl⟩ := List.append_eq_nil.mp ht
        exact Or.inr ⟨3, _, rfl⟩)
    (by
      intro m cs h mm cc
      have h3 : (Node.dir 0 [("backup", Node.dir 3 [("x.txt", Node.file 1 [2])])]).get
          ["backup"] = some (Node.dir 3 [("x.txt", Node.file 1 [2])]) := rfl
      rw [h3] at h
      cases Option.some.inj h
      simp [lookupChild, dirMarker])
    rfl rfl rfl

/-! ### Step equations for `processFiles` -/

section ProcessFilesSteps

variable (env : Env) (flDir : String) (outDir : Path) (excls : excludes)
variable (f : file) (rest : List file) (fs : Node)

theorem processFiles_cons_dir (hd : f.type = typeDirectory) :
    processFiles env flDir outDir excls (f :: rest) fs =
      processFiles env flDir outDir excls rest fs := by
  simp [processFiles, hd]

theorem processFiles_cons_excl (hd : ¬ f.type = typeDirectory)
    (he : excls.Contains (flDir ++ "/" ++ f.name) = true) :
    processFiles env flDir outDir excls (f :: rest) fs =
      processFiles env flDir outDir excls rest fs := by
  simp [processFiles, hd, he]

theorem processFiles_cons_statfail (hd : ¬ f.type = typeDirectory)
    (he : excls.Contains (flDir ++ "/" ++ f.name) = false)
    (hs : env.statFail (outDir ++ [f.name]) = true) :
    processFiles env flDir outDir excls (f :: rest) fs = (some "stat", fs, []) := by
  simp [processFiles, hd, he, hs]

theorem processFiles_cons_fresh (hd : ¬ f.type = typeDirectory)
    (he : excls.Contains (flDir ++ "/" ++ f.name) = false)
    (hs : env.statFail (outDir ++ [f.name]) = false)
    (hn : needsDownload (fs.get (outDir ++ [f.name])) f.date = false) :
    processFiles env flDir outDir excls (f :: rest) fs =
      processFiles env flDir outDir excls rest fs := by
  simp [processFiles, hd, he, hs, hn]

theorem processFiles_cons_dl_err (hd : ¬ f.type = typeDirectory)
    (he : excls.Contains (flDir ++ "/" ++ f.name) = false)
    (hs : env.statFail (outDir ++ [f.name]) = false)
    (hn : needsDownload (fs.get (outDir ++ [f.name])) f.date = true)
    {e : String} (hdl : env.download (flDir ++ "/" ++ f.name) = .error e) :
    processFiles env flDir outDir excls (f :: rest) fs =
      (some e, fs, [flDir ++ "/" ++ f.name]) := by
  simp [processFiles, hd, he, hs, hn, hdl]

theorem processFiles_cons_createfail (hd : ¬ f.type = typeDirectory)
    (he : excls.Contains (flDir ++ "/" ++ f.name) = false)
    (hs : env.statFail (outDir ++ [f.name]) = false)
    (hn : needsDownload (fs.get (outDir ++ [f.name])) f.date = true)
    {body : List Nat} (hdl : env.download (flDir ++ "/" ++ f.name) = .ok body)
    (hcf : env.createFail (outDir ++ [f.name]) = true) :
    processFiles env flDir outDir excls (f :: rest) fs =
      (some "create", fs, [flDir ++ "/" ++ f.name]) := by
  simp [processFiles, hd, he, hs, hn, hdl, hcf]

theorem processFiles_cons_create_none (hd : ¬ f.type = typeDirectory)
    (he : excls.Contains (flDir ++ "/" ++ f.name) = false)
    (hs : env.statFail (outDir ++ [f.name]) = false)
    (hn : needsDownload (fs.get (outDir ++ [f.name])) f.date = true)
    {body : List Nat} (hdl : env.download (flDir ++ "/" ++ f.name) = .ok body)
    (hcf : env.createFail (outDir ++ [f.name]) = false)
    (hcn : fs.createFile (outDir ++ [f.name]) env.clock = none) :
    processFiles env flDir outDir excls (f :: rest) fs =
      (some "create", fs, [flDir ++ "/" ++ f.name]) := by
  simp [processFiles, hd, he, hs, hn, hdl, hcf, hcn]

theorem processFiles_cons_writefail (hd : ¬ f.type = typeDirectory)
    (he : excls.Contains (flDir ++ "/" ++ f.name) = false)
    (hs : env.statFail (outDir ++ [f.name]) = false)
    (hn : needsDownload (fs.get (outDir ++ [f.name])) f.date = true)
    {body : List Nat} (hdl : env.download (flDir ++ "/" ++ f.name) = .ok body)
    (hcf : env.createFail (outDir ++ [f.name]) = false)
    {fs1 : Node} (hcn : fs.createFile (outDir ++ [f.name]) env.clock = some fs1)
    (hwf : env.writeFail (outDir ++ [f.name]) = true) :
    processFiles env flDir outDir excls (f :: rest) fs =
      (some "write", fs1, [flDir ++ "/" ++ f.name]) := by
  simp [processFiles, hd, he, hs, hn, hdl, hcf, hcn, hwf]

theorem processFiles_cons_write_none (hd : ¬ f.type = typeDirectory)
    (he : excls.Contains (flDir ++ "/" ++ f.name) = false)
    (hs : env.statFail (outDir ++ [f.name]) = false)
    (hn : needsDownload (fs.get (outDir ++ [f.name])) f.date = true)
    {body : List Nat} (hdl : env.download (flDir ++ "/" ++ f.name) = .ok body)
    (hcf : env.createFail (outDir ++ [f.name]) = false)
    {fs1 : Node} (hcn : fs.createFile (outDir ++ [f.name]) env.clock = some fs1)
    (hwf : env.writeFail (outDir ++ [f.name]) = false)
    (hwn : fs1.writeFile (outDir ++ [f.name]) env.clock body = none) :
    processFiles env flDir outDir excls (f :: rest) fs =
      (some "write", fs1, [flDir ++ "/" ++ f.name]) := by
  simp [processFiles, hd, he, hs, hn, hdl, hcf, hcn, hwf, hwn]

theorem processFiles_cons_dl_ok (hd : ¬ f.type = typeDirectory)
    (he : excls.Contains (flDir ++ "/" ++ f.name) = false)
    (hs : env.statFail (outDir ++ [f.name]) = false)
    (hn : needsDownload (fs.get (outDir ++ [f.name])) f.date = true)
    {body : List Nat} (hdl : env.download (flDir ++ "/" ++ f.name) = .ok body)
    (hcf : env.createFail (outDir ++ [f.name]) = false)
    {fs1 : Node} (hcn : fs.createFile (outDir ++ [f.name]) env.clock = some fs1)
    (hwf : env.writeFail (outDir ++ [f.name]) = false)
    {fs2 : Node} (hwn : fs1.writeFile (outDir ++ [f.name]) env.clock body = some fs2) :
    processFiles env flDir outDir excls (f :: rest) fs =
      ((processFiles env flDir outDir excls rest
          (fs2.chtimesAt (outDir ++ [f.name]) f.date)).1,
       (processFiles env flDir outDir excls rest
          (fs2.chtimesAt (outDir ++ [f.name]) f.date)).2.1,
       (flDir ++ "/" ++ f.name) ::
       (processFiles env flDir outDir excls rest
          (fs2.chtimesAt (outDir ++ [f.name]) f.date)).2.2) := by
  simp [processFiles, hd, he, hs, hn, hdl, hcf, hcn, hwf, hwn]

end ProcessFilesSteps

theorem get_child {fs : Node} {p : Path} {m : Nat} {cs : List (String × Node)}
    (hget : fs.get p = some (.dir m cs)) (n : String) :
    fs.get (p ++ [n]) = lookupChild cs n := by
  have h := get_append p [n] fs
  rw [hget] at h
  rw [h]
  cases hl : lookupChild cs n with
  | none => simp [Node.get, hl]
  | some c => simp [Node.get, hl]

/-- Fail-fast composition: once the loop has returned an error for a
prefix of the listing, appending more entries changes nothing. -/
theorem processFiles_append_err (env : Env) (flDir : String) (outDir : Path)
    (excls : excludes) :
    ∀ (xs ys : List file) (fs : Node) (e : String) (fs1 : Node)
      (log1 : List String),
      processFiles env flDir outDir excls xs fs = (some e, fs1, log1) →
      processFiles env flDir outDir excls (xs ++ ys) fs = (some e, fs1, log1) := by
  intro xs
  induction xs with
  | nil =>
    intro ys fs e fs1 log1 h
    simp [processFiles] at h
  | cons f rest ih =>
    intro ys fs e fs1 log1 h
    rw [List.cons_append]
    by_cases hd : f.type = typeDirectory
    · rw [processFiles_cons_dir env flDir outDir excls f rest fs hd] at h
      rw [processFiles_cons_dir env flDir outDir excls f (rest ++ ys) fs hd]
      exact ih ys fs e fs1 log1 h
    · by_cases he : excls.Contains (flDir ++ "/" ++ f.name) = true
      · rw [processFiles_cons_excl env flDir outDir excls f rest fs hd he] at h
        rw [processFiles_cons_excl env flDir outDir excls f (rest ++ ys) fs hd he]
        exact ih ys fs e fs1 log1 h
      · replace he : excls.Contains (flDir ++ "/" ++ f.name) = false := by
          revert he; cases excls.Contains (flDir ++ "/" ++ f.name) <;> simp
        by_cases hs : env.statFail (outDir ++ [f.name]) = true
        · rw [processFiles_cons_statfail env flDir outDir excls f rest fs hd he hs] at h
          rw [processFiles_cons_statfail env flDir outDir excls f (rest ++ ys) fs hd he hs]
          exact h
        · replace hs : env.statFail (outDir ++ [f.name]) = false := by
            revert hs; cases env.statFail (outDir ++ [f.name]) <;> simp
          by_cases hn : needsDownload (fs.get (outDir ++ [f.name])) f.date = true
          · cases hdl : env.download (flDir ++ "/" ++ f.name) with
            | error de =>
              rw [processFiles_cons_dl_err env flDir outDir excls f rest fs hd he hs hn hdl] at h
              rw [processFiles_cons_dl_err env flDir outDir excls f (rest ++ ys) fs hd he hs hn hdl]
              exact h
            | ok body =>
              by_cases hcf : env.createFail (outDir ++ [f.name]) = true
              · rw [processFiles_cons_createfail env flDir outDir excls f rest fs hd he hs hn hdl hcf] at h
                rw [processFiles_cons_createfail env flDir outDir excls f (rest ++ ys) fs hd he hs hn hdl hcf]
                exact h
              · replace hcf : env.createFail (outDir ++ [f.name]) = false := by
                  revert hcf; cases env.createFail (outDir ++ [f.name]) <;> simp
                cases hcn : fs.createFile (outDir ++ [f.name]) env.clock with
                | none =>
                  rw [processFiles_cons_create_none env flDir outDir excls f rest fs hd he hs hn hdl hcf hcn] at h
                  rw [processFiles_cons_create_none env flDir outDir excls f (rest ++ ys) fs hd he hs hn hdl hcf hcn]
                  exact h
                | some fsA =>
                  by_cases hwf : env.writeFail (outDir ++ [f.name]) = true
                  · rw [processFiles_cons_writefail env flDir outDir excls f rest fs hd he hs hn hdl hcf hcn hwf] at h
                    rw [processFiles_cons_writefail env flDir outDir excls f (rest ++ ys) fs hd he hs hn hdl hcf hcn hwf]
                    exact h
                  · replace hwf : env.writeFail (outDir ++ [f.name]) = false := by
                      revert hwf; cases env.writeFail (outDir ++ [f.name]) <;> simp
                    cases hwn : fsA.writeFile (outDir ++ [f.name]) env.clock body with
                    | none =>
                      rw [processFiles_cons_write_none env flDir outDir excls f rest fs hd he hs hn hdl hcf hcn hwf hwn] at h
                      rw [processFiles_cons_write_none env flDir outDir excls f (rest ++ ys) fs hd he hs hn hdl hcf hcn hwf hwn]
                      exact h
                    | some fsB =>
                      rw [processFiles_cons_dl_ok env flDir outDir excls f rest fs hd he hs hn hdl hcf hcn hwf hwn] at h
                      rw [processFiles_cons_dl_ok env flDir outDir excls f (rest ++ ys) fs hd he hs hn hdl hcf hcn hwf hwn]
                      simp only [Prod.mk.injEq] at h
                      obtain ⟨h1, h2, h3⟩ := h
                      have hr : processFiles env flDir outDir excls rest
                          (fsB.chtimesAt (outDir ++ [f.name]) f.date) =
                          (some e,
                           (processFiles env flDir outDir excls rest
                             (fsB.chtimesAt (outDir ++ [f.name]) f.date)).2.1,
                           (processFiles env flDir outDir excls rest
                             (fsB.chtimesAt (outDir ++ [f.name]) f.date)).2.2) := by
                        rw [← h1]
                      have hih := ih ys (fsB.chtimesAt (outDir ++ [f.name]) f.date) e _ _ hr
                      rw [hih]
                      simp [← h2, ← h3]
          · replace hn : needsDownload (fs.get (outDir ++ [f.name])) f.date = false := by
              revert hn; cases needsDownload (fs.get (outDir ++ [f.name])) f.date <;> simp
            rw [processFiles_cons_fresh env flDir outDir excls f rest fs hd he hs hn] at h
            rw [processFiles_cons_fresh env flDir outDir excls f (rest ++ ys) fs hd he hs hn]
            exact ih ys fs e fs1 log1 h

/-- Composition on success: the loop over `xs ++ ys` runs `xs`, then
`ys` from the state `xs` produced, concatenating the download logs. -/
theorem processFiles_append_ok (env : Env) (flDir : String) (outDir : Path)
    (excls : excludes) :
    ∀ (xs ys : List file) (fs : Node) (fs1 : Node) (log1 : List String),
      processFiles env flDir outDir excls xs fs = (none, fs1, log1) →
      processFiles env flDir outDir excls (xs ++ ys) fs =
        ((processFiles env flDir outDir excls ys fs1).1,
         (processFiles env flDir outDir excls ys fs1).2.1,
         log1 ++ (processFiles env flDir outDir excls ys fs1).2.2) := by
  intro xs
  induction xs with
  | nil =>
    intro ys fs fs1 log1 h
    simp only [processFiles, Prod.mk.injEq] at h
    obtain ⟨rfl, rfl⟩ := h.2
    simp
  | cons f rest ih =>
    intro ys fs fs1 log1 h
    rw [List.cons_append]
    by_cases hd : f.type = typeDirectory
    · rw [processFiles_cons_dir env flDir outDir excls f rest fs hd] at h
      rw [processFiles_cons_dir env flDir outDir excls f (rest ++ ys) fs hd]
      exact ih ys fs fs1 log1 h
    · by_cases he : excls.Contains (flDir ++ "/" ++ f.name) = true
      · rw [processFiles_cons_excl env flDir outDir excls f rest fs hd he] at h
        rw [processFiles_cons_excl env flDir outDir excls f (rest ++ ys) fs hd he]
        exact ih ys fs fs1 log1 h
      · replace he : excls.Contains (flDir ++ "/" ++ f.name) = false := by
          revert he; cases excls.Contains (flDir ++ "/" ++ f.name) <;> simp
        by_cases hs : env.statFail (outDir ++ [f.name]) = true
        · rw [processFiles_cons_statfail env flDir outDir excls f rest fs hd he hs] at h
          simp at h
        · replace hs : env.statFail (outDir ++ [f.name]) = false := by
            revert hs; cases env.statFail (outDir ++ [f.name]) <;> simp
          by_cases hn : needsDownload (fs.get (outDir ++ [f.name])) f.date = true
          · cases hdl : env.download (flDir ++ "/" ++ f.name) with
            | error de =>
              rw [processFiles_cons_dl_err env flDir outDir excls f rest fs hd he hs hn hdl] at h
              simp at h
            | ok body =>
              by_cases hcf : env.createFail (outDir ++ [f.name]) = true
              · rw [processFiles_cons_createfail env flDir outDir excls f rest fs hd he hs hn hdl hcf] at h
                simp at h
              · replace hcf : env.createFail (outDir ++ [f.name]) = false := by
                  revert hcf; cases env.createFail (outDir ++ [f.name]) <;> simp
                cases hcn : fs.createFile (outDir ++ [f.name]) env.clock with
                | none =>
                  rw [processFiles_cons_create_none env flDir outDir excls f rest fs hd he hs hn hdl hcf hcn] at h
                  simp at h
                | some fsA =>
                  by_cases hwf : env.writeFail (outDir ++ [f.name]) = true
                  · rw [processFiles_cons_writefail env flDir outDir excls f rest fs hd he hs hn hdl hcf hcn hwf] at h
                    simp at h
                  · replace hwf : env.writeFail (outDir ++ [f.name]) = false := by
                      revert hwf; cases env.writeFail (outDir ++ [f.name]) <;> simp
                    cases hwn : fsA.writeFile (outDir ++ [f.name]) env.clock body with
                    | none =>
                      rw [processFiles_cons_write_none env flDir outDir excls f rest fs hd he hs hn hdl hcf hcn hwf hwn] at h
                      simp at h
                    | some fsB =>
                      rw [processFiles_cons_dl_ok env flDir outDir excls f rest fs hd he hs hn hdl hcf hcn hwf hwn] at h
                      rw [processFiles_cons_dl_ok env flDir outDir excls f (rest ++ ys) fs hd he hs hn hdl hcf hcn hwf hwn]
                      simp only [Prod.mk.injEq] at h
                      obtain ⟨h1, h2, h3⟩ := h
                      have hr : processFiles env flDir outDir excls rest
                          (fsB.chtimesAt (outDir ++ [f.name]) f.date) =
                          (none,
                           (processFiles env flDir outDir excls rest
                             (fsB.chtimesAt (outDir ++ [f.name]) f.date)).2.1,
                           (processFiles env flDir outDir excls rest
                             (fsB.chtimesAt (outDir ++ [f.name]) f.date)).2.2) := by
                        rw [← h1]
                      have hih := ih ys (fsB.chtimesAt (outDir ++ [f.name]) f.date) _ _ hr
                      rw [hih]
                      subst h2
                      simp [← h3]
          · replace hn : needsDownload (fs.get (outDir ++ [f.name])) f.date = false := by
              revert hn; cases needsDownload (fs.get (outDir ++ [f.name])) f.date <;> simp
            rw [processFiles_cons_fresh env flDir outDir excls f rest fs hd he hs hn] at h
            rw [processFiles_cons_fresh env flDir outDir excls f (rest ++ ys) fs hd he hs hn]
            exact ih ys fs fs1 log1 h

/-- Master invariant of a successful `processFiles` run over the
children of `outDir`: the directory node survives with the same
modification time; children whose names are not those of processed
(non-directory, non-excluded) entries keep their exact bindings;
every child's modification time is monotone; and every logged download
is the remote path of some non-directory, non-excluded entry. -/
theorem processFiles_master (env : Env) (flDir : String) (outDir : Path)
    (excls : excludes) :
    ∀ (files : List file) (fs : Node) (m : Nat) (cs : List (String × Node))
      (fs' : Node) (log : List String),
      fs.get outDir = some (.dir m cs) →
      processFiles env flDir outDir excls files fs = (none, fs', log) →
      ∃ cs', fs'.get outDir = some (.dir m cs') ∧
        (∀ q : String,
          (∀ f ∈ files, f.type ≠ typeDirectory →
            excls.Contains (flDir ++ "/" ++ f.name) = false → f.name ≠ q) →
          lookupChild cs' q = lookupChild cs q) ∧
        (∀ q nd, lookupChild cs q = some nd →
          ∃ nd', lookupChild cs' q = some nd' ∧ nd.mtime ≤ nd'.mtime) ∧
        (∀ r ∈ log, ∃ f, f ∈ files ∧ f.type ≠ typeDirectory ∧
          excls.Contains (flDir ++ "/" ++ f.name) = false ∧
          r = flDir ++ "/" ++ f.name) := by
  intro files
  induction files with
  | nil =>
    intro fs m cs fs' log hget hrun
    simp only [processFiles, Prod.mk.injEq] at hrun
    obtain ⟨rfl, rfl⟩ := hrun.2
    exact ⟨cs, hget, fun q _ => rfl,
      fun q nd h => ⟨nd, h, le_refl _⟩, by simp⟩
  | cons f rest ih =>
    intro fs m cs fs' log hget hrun
    by_cases hd : f.type = typeDirectory
    · rw [processFiles_cons_dir env flDir outDir excls f rest fs hd] at hrun
      obtain ⟨cs', h1, hF, hM, hL⟩ := ih fs m cs fs' log hget hrun
      refine ⟨cs', h1, ?_, hM, ?_⟩
      · exact fun q hq => hF q (fun g hg => hq g (List.mem_cons_of_mem f hg))
      · intro r hr
        obtain ⟨g, hgmem, hgd, hge, hgr⟩ := hL r hr
        exact ⟨g, List.mem_cons_of_mem f hgmem, hgd, hge, hgr⟩
    · by_cases he : excls.Contains (flDir ++ "/" ++ f.name) = true
      · rw [processFiles_cons_excl env flDir outDir excls f rest fs hd he] at hrun
        obtain ⟨cs', h1, hF, hM, hL⟩ := ih fs m cs fs' log hget hrun
        refine ⟨cs', h1, ?_, hM, ?_⟩
        · exact fun q hq => hF q (fun g hg => hq g (List.mem_cons_of_mem f hg))
        · intro r hr
          obtain ⟨g, hgmem, hgd, hge, hgr⟩ := hL r hr
          exact ⟨g, List.mem_cons_of_mem f hgmem, hgd, hge, hgr⟩
      · replace he : excls.Contains (flDir ++ "/" ++ f.name) = false := by
          revert he; cases excls.Contains (flDir ++ "/" ++ f.name) <;> simp
        by_cases hs : env.statFail (outDir ++ [f.name]) = true
        · rw [processFiles_cons_statfail env flDir outDir excls f rest fs hd he hs] at hrun
          simp at hrun
        · replace hs : env.statFail (outDir ++ [f.name]) = false := by
            revert hs; cases env.statFail (outDir ++ [f.name]) <;> simp
          by_cases hn : needsDownload (fs.get (outDir ++ [f.name])) f.date = true
          · cases hdl : env.download (flDir ++ "/" ++ f.name) with
            | error de =>
              rw [processFiles_cons_dl_err env flDir outDir excls f rest fs hd he hs hn hdl] at hrun
              simp at hrun
            | ok body =>
              by_cases hcf : env.createFail (outDir ++ [f.name]) = true
              · rw [processFiles_cons_createfail env flDir outDir excls f rest fs hd he hs hn hdl hcf] at hrun
                simp at hrun
              · replace hcf : env.createFail (outDir ++ [f.name]) = false := by
                  revert hcf; cases env.createFail (outDir ++ [f.name]) <;> simp
                cases hcn : fs.createFile (outDir ++ [f.name]) env.clock with
                | none =>
                  rw [processFiles_cons_create_none env flDir outDir excls f rest fs hd he hs hn hdl hcf hcn] at hrun
                  simp at hrun
                | some fsA =>
                  by_cases hwf : env.writeFail (outDir ++ [f.name]) = true
                  · rw [processFiles_cons_writefail env flDir outDir excls f rest fs hd he hs hn hdl hcf hcn hwf] at hrun
                    simp at hrun
                  · replace hwf : env.writeFail (outDir ++ [f.name]) = false := by
                      revert hwf; cases env.writeFail (outDir ++ [f.name]) <;> simp
                    cases hwn : fsA.writeFile (outDir ++ [f.name]) env.clock body with
                    | none =>
                      rw [processFiles_cons_write_none env flDir outDir excls f rest fs hd he hs hn hdl hcf hcn hwf hwn] at hrun
                      simp at hrun
                    | some fsB =>
                      -- the current binding of `f.name` cannot be a directory
                      have hnd : ∀ mm cc,
                          lookupChild cs f.name ≠ some (.dir mm cc) := by
                        intro mm cc hlc
                        rw [createFile_none_of_dirchild hget env.clock hlc] at hcn
                        cases hcn
                      obtain ⟨fsA', hcf', hgetA⟩ :=
                        createFile_at hget f.name env.clock hnd
                      rw [hcf'] at hcn
                      cases hcn
                      obtain ⟨fsB', hw', hgetB⟩ := writeFile_at hgetA env.clock body
                        (lookupChild_setChild_self cs f.name (.file env.clock []))
                      rw [hw'] at hwn
                      cases hwn
                      rw [setChild_setChild] at hgetB
                      obtain ⟨fs3, hch, hget3⟩ := chtimesAt_at hgetB f.date
                        (lookupChild_setChild_self cs f.name (.file env.clock body))
                      rw [setChild_setChild] at hget3
                      rw [processFiles_cons_dl_ok env flDir outDir excls f rest fs hd he hs hn hdl hcf hcf' hwf hw'] at hrun
                      rw [hch] at hrun
                      simp only [Prod.mk.injEq] at hrun
                      obtain ⟨h1, h2, h3⟩ := hrun
                      have hr : processFiles env flDir outDir excls rest fs3 =
                          (none,
                           (processFiles env flDir outDir excls rest fs3).2.1,
                           (processFiles env flDir outDir excls rest fs3).2.2) := by
                        rw [← h1]
                      obtain ⟨cs', hget', hF, hM, hL⟩ := ih fs3 m
                        (setChild cs f.name (.file f.date body)) _ _ hget3 hr
                      rw [h2] at hget'
                      refine ⟨cs', hget', ?_, ?_, ?_⟩
                      · intro q hq
                        have hfq : f.name ≠ q :=
                          hq f (List.mem_cons_self f rest) hd he
                        rw [hF q (fun g hg => hq g (List.mem_cons_of_mem f hg))]
                        rw [lookupChild_setChild_eq_ne, if_neg hfq]
                      · intro q nd hnd2
                        by_cases hqf : q = f.name
                        · subst hqf
                          rw [get_child hget f.name, hnd2] at hn
                          simp only [needsDownload, decide_eq_true_eq] at hn
                          obtain ⟨nd', hnd', hle⟩ := hM f.name (.file f.date body)
                            (by rw [lookupChild_setChild_self])
                          refine ⟨nd', hnd', ?_⟩
                          exact le_trans (le_of_lt hn) hle
                        · obtain ⟨nd', hnd', hle⟩ := hM q nd
                            (by rw [lookupChild_setChild_eq_ne,
                              if_neg (fun h => hqf h.symm)]; exact hnd2)
                          exact ⟨nd', hnd', hle⟩
                      · intro r hr2
                        rw [← h3] at hr2
                        rcases List.mem_cons.mp hr2 with rfl | hr2
                        · exact ⟨f, List.mem_cons_self f rest, hd, he, rfl⟩
                        · obtain ⟨g, hgmem, hgd, hge, hgr⟩ := hL r hr2
                          exact ⟨g, List.mem_cons_of_mem f hgmem, hgd, hge, hgr⟩
          · replace hn : needsDownload (fs.get (outDir ++ [f.name])) f.date = false := by
              revert hn; cases needsDownload (fs.get (outDir ++ [f.name])) f.date <;> simp
            rw [processFiles_cons_fresh env flDir outDir excls f rest fs hd he hs hn] at hrun
            obtain ⟨cs', h1, hF, hM, hL⟩ := ih fs m cs fs' log hget hrun
            refine ⟨cs', h1, ?_, hM, ?_⟩
            · exact fun q hq => hF q (fun g hg => hq g (List.mem_cons_of_mem f hg))
            · intro r hr
              obtain ⟨g, hgmem, hgd, hge, hgr⟩ := hL r hr
              exact ⟨g, List.mem_cons_of_mem f hgmem, hgd, hge, hgr⟩

/-- A run in which every entry is a directory, excluded, or already
up to date changes nothing and downloads nothing. -/
theorem processFiles_all_fresh (env : Env) (flDir : String) (outDir : Path)
    (excls : excludes) :
    ∀ (files : List file) (fs : Node) (m : Nat) (cs : List (String × Node)),
      fs.get outDir = some (.dir m cs) →
      (∀ f ∈ files, f.type = typeDirectory ∨
        excls.Contains (flDir ++ "/" ++ f.name) = true ∨
        (env.statFail (outDir ++ [f.name]) = false ∧
         needsDownload (lookupChild cs f.name) f.date = false)) →
      processFiles env flDir outDir excls files fs = (none, fs, []) := by
  intro files
  induction files with
  | nil => intro fs m cs _ _; rfl
  | cons f rest ih =>
    intro fs m cs hget hall
    by_cases hd : f.type = typeDirectory
    · rw [processFiles_cons_dir env flDir outDir excls f rest fs hd]
      exact ih fs m cs hget (fun g hg => hall g (List.mem_cons_of_mem f hg))
    · by_cases he : excls.Contains (flDir ++ "/" ++ f.name) = true
      · rw [processFiles_cons_excl env flDir outDir excls f rest fs hd he]
        exact ih fs m cs hget (fun g hg => hall g (List.mem_cons_of_mem f hg))
      · replace he : excls.Contains (flDir ++ "/" ++ f.name) = false := by
          revert he; cases excls.Contains (flDir ++ "/" ++ f.name) <;> simp
        rcases hall f (List.mem_cons_self f rest) with h | h | ⟨hsf, hnf⟩
        · exact absurd h hd
        · rw [he] at h; cases h
        · rw [processFiles_cons_fresh env flDir outDir excls f rest fs hd he hsf
            (by rw [get_child hget f.name]; exact hnf)]
          exact ih fs m cs hget (fun g hg => hall g (List.mem_cons_of_mem f hg))

/-- After a successful run, every non-directory, non-excluded entry of
the listing has a local counterpart whose modification time is at least
the entry's date. -/
theorem processFiles_date_le (env : Env) (flDir : String) (outDir : Path)
    (excls : excludes) :
    ∀ (files : List file) (fs : Node) (m : Nat) (cs : List (String × Node))
      (fs' : Node) (log : List String),
      fs.get outDir = some (.dir m cs) →
      processFiles env flDir outDir excls files fs = (none, fs', log) →
      ∀ f ∈ files, ¬ f.type = typeDirectory →
        excls.Contains (flDir ++ "/" ++ f.name) = false →
        ∃ cs' nd, fs'.get outDir = some (.dir m cs') ∧
          lookupChild cs' f.name = some nd ∧ f.date ≤ nd.mtime := by
  intro files
  induction files with
  | nil =>
    intro fs m cs fs' log _ _ f hf
    cases hf
  | cons f0 rest ih =>
    intro fs m cs fs' log hget hrun f hf hfd hfe
    by_cases hd : f0.type = typeDirectory
    · rw [processFiles_cons_dir env flDir outDir excls f0 rest fs hd] at hrun
      rcases List.mem_cons.mp hf with rfl | hf
      · exact absurd hd hfd
      · exact ih fs m cs fs' log hget hrun f hf hfd hfe
    · by_cases he : excls.Contains (flDir ++ "/" ++ f0.name) = true
      · rw [processFiles_cons_excl env flDir outDir excls f0 rest fs hd he] at hrun
        rcases List.mem_cons.mp hf with rfl | hf
        · rw [hfe] at he; cases he
        · exact ih fs m cs fs' log hget hrun f hf hfd hfe
      · replace he : excls.Contains (flDir ++ "/" ++ f0.name) = false := by
          revert he; cases excls.Contains (flDir ++ "/" ++ f0.name) <;> simp
        by_cases hs : env.statFail (outDir ++ [f0.name]) = true
        · rw [processFiles_cons_statfail env flDir outDir excls f0 rest fs hd he hs] at hrun
          simp at hrun
        · replace hs : env.statFail (outDir ++ [f0.name]) = false := by
            revert hs; cases env.statFail (outDir ++ [f0.name]) <;> simp
          by_cases hn : needsDownload (fs.get (outDir ++ [f0.name])) f0.date = true
          · cases hdl : env.download (flDir ++ "/" ++ f0.name) with
            | error de =>
              rw [processFiles_cons_dl_err env flDir outDir excls f0 rest fs hd he hs hn hdl] at hrun
              simp at hrun
            | ok body =>
              by_cases hcf : env.createFail (outDir ++ [f0.name]) = true
              · rw [processFiles_cons_createfail env flDir outDir excls f0 rest fs hd he hs hn hdl hcf] at hrun
                simp at hrun
              · replace hcf : env.createFail (outDir ++ [f0.name]) = false := by
                  revert hcf; cases env.createFail (outDir ++ [f0.name]) <;> simp
                cases hcn : fs.createFile (outDir ++ [f0.name]) env.clock with
                | none =>
                  rw [processFiles_cons_create_none env flDir outDir excls f0 rest fs hd he hs hn hdl hcf hcn] at hrun
                  simp at hrun
                | some fsA =>
                  by_cases hwf : env.writeFail (outDir ++ [f0.name]) = true
                  · rw [processFiles_cons_writefail env flDir outDir excls f0 rest fs hd he hs hn hdl hcf hcn hwf] at hrun
                    simp at hrun
                  · replace hwf : env.writeFail (outDir ++ [f0.name]) = false := by
                      revert hwf; cases env.writeFail (outDir ++ [f0.name]) <;> simp
                    cases hwn : fsA.writeFile (outDir ++ [f0.name]) env.clock body with
                    | none =>
                      rw [processFiles_cons_write_none env flDir outDir excls f0 rest fs hd he hs hn hdl hcf hcn hwf hwn] at hrun
                      simp at hrun
                    | some fsB =>
                      have hnd : ∀ mm cc,
                          lookupChild cs f0.name ≠ some (.dir mm cc) := by
                        intro mm cc hlc
                        rw [createFile_none_of_dirchild hget env.clock hlc] at hcn
                        cases hcn
                      obtain ⟨fsA', hcf', hgetA⟩ :=
                        createFile_at hget f0.name env.clock hnd
                      rw [hcf'] at hcn
                      cases hcn
                      obtain ⟨fsB', hw', hgetB⟩ := writeFile_at hgetA env.clock body
                        (lookupChild_setChild_self cs f0.name (.file env.clock []))
                      rw [hw'] at hwn
                      cases hwn
                      rw [setChild_setChild] at hgetB
                      obtain ⟨fs3, hch, hget3⟩ := chtimesAt_at hgetB f0.date
                        (lookupChild_setChild_self cs f0.name (.file env.clock body))
                      rw [setChild_setChild] at hget3
                      rw [processFiles_cons_dl_ok env flDir outDir excls f0 rest fs hd he hs hn hdl hcf hcf' hwf hw'] at hrun
                      rw [hch] at hrun
                      simp only [Prod.mk.injEq] at hrun
                      obtain ⟨h1, h2, h3⟩ := hrun
                      have hr : processFiles env flDir outDir excls rest fs3 =
                          (none,
                           (processFiles env flDir outDir excls rest fs3).2.1,
                           (processFiles env flDir outDir excls rest fs3).2.2) := by
                        rw [← h1]
                      rcases List.mem_cons.mp hf with rfl | hf
                      · obtain ⟨cs', hget', hF, hM, hL⟩ := processFiles_master
                          env flDir outDir excls rest fs3 m
                          (setChild cs f.name (.file f.date body)) _ _ hget3 hr
                        obtain ⟨nd', hnd', hle⟩ := hM f.name (.file f.date body)
                          (lookupChild_setChild_self cs f.name (.file f.date body))
                        rw [h2] at hget'
                        exact ⟨cs', nd', hget', hnd', hle⟩
                      · obtain ⟨cs', nd', hget', hnd', hle⟩ := ih fs3 m
                          (setChild cs f0.name (.file f0.date body)) _ _ hget3 hr
                          f hf hfd hfe
                        rw [h2] at hget'
                        exact ⟨cs', nd', hget', hnd', hle⟩
          · replace hn : needsDownload (fs.get (outDir ++ [f0.name])) f0.date = false := by
              revert hn; cases needsDownload (fs.get (outDir ++ [f0.name])) f0.date <;> simp
            rw [processFiles_cons_fresh env flDir outDir excls f0 rest fs hd he hs hn] at hrun
            rcases List.mem_cons.mp hf with rfl | hf
            · rw [get_child hget f.name] at hn
              cases hlc : lookupChild cs f.name with
              | none => rw [hlc] at hn; simp [needsDownload] at hn
              | some nd0 =>
                rw [hlc] at hn
                simp only [needsDownload, decide_eq_false_iff_not, not_lt] at hn
                obtain ⟨cs', hget', hF, hM, hL⟩ := processFiles_master
                  env flDir outDir excls rest fs m cs fs' log hget hrun
                obtain ⟨nd', hnd', hle⟩ := hM f.name nd0 hlc
                exact ⟨cs', nd', hget', hnd', le_trans hn hle⟩
            · exact ih fs m cs fs' log hget hrun f hf hfd hfe

/-- Shape of a successful `os.Create`: the parent was a directory, and
afterwards it carries the fresh empty file. -/
theorem createFile_success {p : Path} :
    ∀ {fs fs' : Node} {n : String} {clock : Nat},
      fs.createFile (p ++ [n]) clock = some fs' →
      ∃ m cs, fs.get p = some (.dir m cs) ∧
        fs'.get p = some (.dir m (setChild cs n (.file clock []))) := by
  induction p with
  | nil =>
    intro fs fs' n clock h
    cases fs with
    | file mt ct => simp [Node.createFile] at h
    | dir m cs =>
      refine ⟨m, cs, rfl, ?_⟩
      simp only [List.nil_append, Node.createFile] at h
      cases hl : lookupChild cs n with
      | none =>
        rw [hl] at h
        simp only [Option.some.injEq] at h
        rw [← h]
        rfl
      | some c =>
        cases c with
        | file mt ct =>
          rw [hl] at h
          simp only [Option.some.injEq] at h
          rw [← h]
          rfl
        | dir mm cc =>
          rw [hl] at h
          simp at h
  | cons s p ih =>
    intro fs fs' n clock h
    cases fs with
    | file mt ct =>
      cases hq : p ++ [n] with
      | nil => simp at hq
      | cons y ys =>
        rw [List.cons_append, hq] at h
        simp [Node.createFile] at h
    | dir m' cs' =>
      rw [List.cons_append,
        createFile_cons s (p ++ [n]) (by simp) clock m' cs'] at h
      cases hls : lookupChild cs' s with
      | none => rw [hls] at h; simp at h
      | some c =>
        simp only [hls] at h
        cases hcc : Node.createFile (p ++ [n]) clock c with
        | none => simp only [hcc] at h; simp at h
        | some c2 =>
          simp only [hcc, Option.some.injEq] at h
          obtain ⟨m, cs, hc1, hc2⟩ := ih hcc
          refine ⟨m, cs, ?_, ?_⟩
          · simp [Node.get, hls, hc1]
          · rw [← h]
            simp [Node.get, lookupChild_setChild_self, hc2]

/-- A successful `ensureOutDirExists` leaves `outDir` a directory whose
marker child is the freshly created empty file. -/
theorem ensure_success_shape {env : Env} {outDir : Path} {fs fs2 : Node}
    (h : ensureOutDirExists env outDir fs = (none, fs2)) :
    ∃ m cs, fs2.get outDir =
      some (.dir m (setChild cs dirMarker (.file env.clock []))) := by
  unfold ensureOutDirExists at h
  by_cases hst : env.statFail outDir = true
  · rw [if_pos hst] at h; simp at h
  · rw [if_neg hst] at h
    cases hmk : (match fs.get outDir with
      | none =>
        if env.mkdirFail outDir then none
        else fs.mkdirAll outDir env.clock
      | some _ => some fs) with
    | none => rw [hmk] at h; simp at h
    | some fs1 =>
      rw [hmk] at h
      simp only at h
      by_cases hcr : env.createFail (outDir ++ [dirMarker]) = true
      · rw [if_pos hcr] at h; simp at h
      · rw [if_neg hcr] at h
        cases hc : fs1.createFile (outDir ++ [dirMarker]) env.clock with
        | none => rw [hc] at h; simp at h
        | some fs2' =>
          rw [hc] at h
          simp only [Prod.mk.injEq] at h
          obtain ⟨-, rfl⟩ := h
          obtain ⟨m, cs, _, h2⟩ := createFile_success hc
          exact ⟨m, cs, h2⟩

theorem strAppend_left_cancel {s a b : String} (h : s ++ a = s ++ b) : a = b := by
  have h2 : (s ++ a).data = (s ++ b).data := congrArg String.data h
  cases s with
  | mk ds =>
    cases a with
    | mk da =>
      cases b with
      | mk db =>
        simp only [String.data_append] at h2
        have h3 := List.append_cancel_left h2
        simp only at h3
        rw [h3]

/-- Per-entry behaviour of a successful run on a listing with distinct
names: an entry's remote path is download-logged iff the entry was
absent or stale at the start of the loop, and a downloaded entry ends
up as a local file whose modification time is exactly the entry's date
and whose content is the downloaded body. -/
theorem processFiles_entry (env : Env) (flDir : String) (outDir : Path)
    (excls : excludes) :
    ∀ (files : List file) (fs : Node) (m : Nat) (cs : List (String × Node))
      (fs' : Node) (log : List String),
      fs.get outDir = some (.dir m cs) →
      processFiles env flDir outDir excls files fs = (none, fs', log) →
      (files.map (fun f => f.name)).Nodup →
      ∀ f ∈ files, ¬ f.type = typeDirectory →
        excls.Contains (flDir ++ "/" ++ f.name) = false →
        (((flDir ++ "/" ++ f.name) ∈ log) ↔
          needsDownload (lookupChild cs f.name) f.date = true) ∧
        (needsDownload (lookupChild cs f.name) f.date = true →
          ∃ body cs', env.download (flDir ++ "/" ++ f.name) = .ok body ∧
            fs'.get outDir = some (.dir m cs') ∧
            lookupChild cs' f.name = some (.file f.date body)) := by
  intro files
  induction files with
  | nil =>
    intro fs m cs fs' log _ _ _ f hf
    cases hf
  | cons f0 rest ih =>
    intro fs m cs fs' log hget hrun hnodup f hf hfd hfe
    rw [List.map_cons, List.nodup_cons] at hnodup
    obtain ⟨hnin, hnd2⟩ := hnodup
    by_cases hd : f0.type = typeDirectory
    · rw [processFiles_cons_dir env flDir outDir excls f0 rest fs hd] at hrun
      rcases List.mem_cons.mp hf with rfl | hf
      · exact absurd hd hfd
      · exact ih fs m cs fs' log hget hrun hnd2 f hf hfd hfe
    · by_cases he : excls.Contains (flDir ++ "/" ++ f0.name) = true
      · rw [processFiles_cons_excl env flDir outDir excls f0 rest fs hd he] at hrun
        rcases List.mem_cons.mp hf with rfl | hf
        · rw [hfe] at he; cases he
        · exact ih fs m cs fs' log hget hrun hnd2 f hf hfd hfe
      · replace he : excls.Contains (flDir ++ "/" ++ f0.name) = false := by
          revert he; cases excls.Contains (flDir ++ "/" ++ f0.name) <;> simp
        by_cases hs : env.statFail (outDir ++ [f0.name]) = true
        · rw [processFiles_cons_statfail env flDir outDir excls f0 rest fs hd he hs] at hrun
          simp at hrun
        · replace hs : env.statFail (outDir ++ [f0.name]) = false := by
            revert hs; cases env.statFail (outDir ++ [f0.name]) <;> simp
          by_cases hn : needsDownload (fs.get (outDir ++ [f0.name])) f0.date = true
          · cases hdl : env.download (flDir ++ "/" ++ f0.name) with
            | error de =>
              rw [processFiles_cons_dl_err env flDir outDir excls f0 rest fs hd he hs hn hdl] at hrun
              simp at hrun
            | ok body =>
              by_cases hcf : env.createFail (outDir ++ [f0.name]) = true
              · rw [processFiles_cons_createfail env flDir outDir excls f0 rest fs hd he hs hn hdl hcf] at hrun
                simp at hrun
              · replace hcf : env.createFail (outDir ++ [f0.name]) = false := by
                  revert hcf; cases env.createFail (outDir ++ [f0.name]) <;> simp
                cases hcn : fs.createFile (outDir ++ [f0.name]) env.clock with
                | none =>
                  rw [processFiles_cons_create_none env flDir outDir excls f0 rest fs hd he hs hn hdl hcf hcn] at hrun
                  simp at hrun
                | some fsA =>
                  by_cases hwf : env.writeFail (outDir ++ [f0.name]) = true
                  · rw [processFiles_cons_writefail env flDir outDir excls f0 rest fs hd he hs hn hdl hcf hcn hwf] at hrun
                    simp at hrun
                  · replace hwf : env.writeFail (outDir ++ [f0.name]) = false := by
                      revert hwf; cases env.writeFail (outDir ++ [f0.name]) <;> simp
                    cases hwn : fsA.writeFile (outDir ++ [f0.name]) env.clock body with
                    | none =>
                      rw [processFiles_cons_write_none env flDir outDir excls f0 rest fs hd he hs hn hdl hcf hcn hwf hwn] at hrun
                      simp at hrun
                    | some fsB =>
                      have hnd : ∀ mm cc,
                          lookupChild cs f0.name ≠ some (.dir mm cc) := by
                        intro mm cc hlc
                        rw [createFile_none_of_dirchild hget env.clock hlc] at hcn
                        cases hcn
                      obtain ⟨fsA', hcf', hgetA⟩ :=
                        createFile_at hget f0.name env.clock hnd
                      rw [hcf'] at hcn
                      cases hcn
                      obtain ⟨fsB', hw', hgetB⟩ := writeFile_at hgetA env.clock body
                        (lookupChild_setChild_self cs f0.name (.file env.clock []))
                      rw [hw'] at hwn
                      cases hwn
                      rw [setChild_setChild] at hgetB
                      obtain ⟨fs3, hch, hget3⟩ := chtimesAt_at hgetB f0.date
                        (lookupChild_setChild_self cs f0.name (.file env.clock body))
                      rw [setChild_setChild] at hget3
                      rw [processFiles_cons_dl_ok env flDir outDir excls f0 rest fs hd he hs hn hdl hcf hcf' hwf hw'] at hrun
                      rw [hch] at hrun
                      simp only [Prod.mk.injEq] at hrun
                      obtain ⟨h1, h2, h3⟩ := hrun
                      have hr : processFiles env flDir outDir excls rest fs3 =
                          (none,
                           (processFiles env flDir outDir excls rest fs3).2.1,
                           (processFiles env flDir outDir excls rest fs3).2.2) := by
                        rw [← h1]
                      rw [get_child hget f0.name] at hn
                      rcases List.mem_cons.mp hf with rfl | hf
                      · constructor
                        · rw [hn]
                          simp only [iff_true]
                          rw [← h3]
                          exact List.mem_cons_self _ _
                        · intro _
                          obtain ⟨cs', hget', hF, hM, hL⟩ := processFiles_master
                            env flDir outDir excls rest fs3 m
                            (setChild cs f.name (.file f.date body)) _ _ hget3 hr
                          refine ⟨body, cs', hdl, by rw [← h2]; exact hget', ?_⟩
                          rw [hF f.name ?hq]
                          · rw [lookupChild_setChild_self]
                          case hq =>
                            intro g hg _ _ hgn
                            exact hnin (hgn ▸ List.mem_map_of_mem (fun x => x.name) hg)
                      · have hne : f.name ≠ f0.name := by
                          intro hx
                          exact hnin (hx ▸ List.mem_map_of_mem (fun x => x.name) hf)
                        have hlook3 : lookupChild
                            (setChild cs f0.name (.file f0.date body)) f.name =
                            lookupChild cs f.name := by
                          rw [lookupChild_setChild_eq_ne,
                            if_neg (fun hx => hne hx.symm)]
                        obtain ⟨hiff, hval⟩ := ih fs3 m
                          (setChild cs f0.name (.file f0.date body)) _ _ hget3 hr
                          hnd2 f hf hfd hfe
                        rw [hlook3] at hiff hval
                        constructor
                        · rw [← h3]
                          rw [List.mem_cons]
                          have hner : flDir ++ "/" ++ f.name ≠ flDir ++ "/" ++ f0.name := by
                            intro hx
                            exact hne (strAppend_left_cancel hx)
                          constructor
                          · intro hx
                            rcases hx with hx | hx
                            · exact absurd hx hner
                            · exact hiff.mp hx
                          · intro hx
                            exact Or.inr (hiff.mpr hx)
                        · intro hndl
                          obtain ⟨body2, cs', hdl2, hget', hlook'⟩ := hval hndl
                          exact ⟨body2, cs', hdl2, by rw [← h2]; exact hget', hlook'⟩
          · replace hn : needsDownload (fs.get (outDir ++ [f0.name])) f0.date = false := by
              revert hn; cases needsDownload (fs.get (outDir ++ [f0.name])) f0.date <;> simp
            rw [processFiles_cons_fresh env flDir outDir excls f0 rest fs hd he hs hn] at hrun
            rw [get_child hget f0.name] at hn
            rcases List.mem_cons.mp hf with rfl | hf
            · constructor
              · rw [hn]
                simp only [Bool.false_eq_true, iff_false]
                intro hmem
                obtain ⟨cs', hget', hF, hM, hL⟩ := processFiles_master
                  env flDir outDir excls rest fs m cs fs' log hget hrun
                obtain ⟨g, hgmem, _, _, hgr⟩ := hL _ hmem
                have : f.name = g.name := strAppend_left_cancel hgr
                exact hnin (this ▸ List.mem_map_of_mem (fun x => x.name) hgmem)
              · intro hx
                rw [hn] at hx
                cases hx
            · exact ih fs m cs fs' log hget hrun hnd2 f hf hfd hfe

/-! ## C3: download condition of the mirror updater -/

/-- A remote file entry `a.txt`, dated 100. -/
def flAfile : file := { type := "f", name := "a.txt", size := 3, date := 100 }

/-- A listing with the single remote file `a.txt`, dated 100. -/
def flA : filelist :=
  { Dir := "0:/sys", Files := [flAfile], next := 0 }

/-- The mirror directory as `ensureOutDirExists` leaves it on a fresh
run: the directory and its marker. -/
def fsAfterEnsure : Node :=
  Node.dir 0 [("backup", Node.dir 0 [(".duetbackup", Node.file 0 [])])]

/-- The mirror after one successful sync of `flA`. -/
def fsAfterRun : Node :=
  Node.dir 0 [("backup", Node.dir 0
    [(".duetbackup", Node.file 0 []), ("a.txt", Node.file 100 [])])]

/-- C3 (counterexample): with the exclude prefix `0:/sys` registered,
the listing entry `a.txt` is absent locally, yet the updater performs
zero downloads and the file stays absent — refuting "downloads iff the
local file is absent or older" as stated over every file entry. -/
theorem updater_skips_excluded_stale_file :
    (excludes.Set { excls := [] } "0:/sys").Contains "0:/sys/a.txt" = true ∧
    updateLocalFiles envOk flA ["backup"]
        (excludes.Set { excls := [] } "0:/sys") (.dir 0 []) =
      (none, fsAfterEnsure, []) ∧
    fsAfterEnsure.get (["backup"] ++ ["a.txt"]) = none :=
  ⟨rfl, rfl, rfl⟩

/-- C3 (amended): for every *non-excluded* file entry of the listing
(and distinct listing names), a successful run of the updater downloads
the entry iff its local counterpart is absent or has modification time
strictly earlier than the entry's date, and after a download the local
file carries exactly the entry's date and the downloaded bytes. -/
theorem updater_downloads_iff_absent_or_stale (env : Env) (fl : filelist)
    (outDir : Path) (excls : excludes) (fs fsE fs' : Node) (log : List String)
    (mE : Nat) (csE : List (String × Node)) (f : file)
    (hens : ensureOutDirExists env outDir fs = (none, fsE))
    (hgetE : fsE.get outDir = some (.dir mE csE))
    (hrun : updateLocalFiles env fl outDir excls fs = (none, fs', log))
    (hnodup : (fl.Files.map (fun g => g.name)).Nodup)
    (hf : f ∈ fl.Files) (hfd : ¬ f.type = typeDirectory)
    (hfe : excls.Contains (fl.Dir ++ "/" ++ f.name) = false) :
    (((fl.Dir ++ "/" ++ f.name) ∈ log) ↔
      needsDownload (lookupChild csE f.name) f.date = true) ∧
    (needsDownload (lookupChild csE f.name) f.date = true →
      ∃ body cs', env.download (fl.Dir ++ "/" ++ f.name) = .ok body ∧
        fs'.get outDir = some (.dir mE cs') ∧
        lookupChild cs' f.name = some (.file f.date body)) := by
  have hrun2 : processFiles env fl.Dir outDir excls fl.Files fsE =
      (none, fs', log) := by
    have hu : updateLocalFiles env fl outDir excls fs =
        processFiles env fl.Dir outDir excls fl.Files fsE := by
      unfold updateLocalFiles
      rw [hens]
    rw [hu] at hrun
    exact hrun
  exact processFiles_entry env fl.Dir outDir excls fl.Files fsE mE csE fs' log
    hgetE hrun2 hnodup f hf hfd hfe

/-- Witness for C3 at a concrete one-file listing with no excludes:
the absent `a.txt` is downloaded and lands with mtime 100. -/
theorem updater_downloads_iff_absent_or_stale_witness :
    ((("0:/sys" ++ "/" ++ "a.txt") ∈ (["0:/sys/a.txt"] : List String)) ↔
      needsDownload (lookupChild [(".duetbackup", Node.file 0 [])] "a.txt") 100 = true) ∧
    (needsDownload (lookupChild [(".duetbackup", Node.file 0 [])] "a.txt") 100 = true →
      ∃ body cs', envOk.download ("0:/sys" ++ "/" ++ "a.txt") = .ok body ∧
        fsAfterRun.get ["backup"] = some (.dir 0 cs') ∧
        lookupChild cs' "a.txt" = some (.file 100 body)) :=
  updater_downloads_iff_absent_or_stale envOk flA ["backup"] { excls := [] }
    (.dir 0 []) fsAfterEnsure fsAfterRun ["0:/sys/a.txt"] 0
    [(".duetbackup", Node.file 0 [])]
    { type := "f", name := "a.txt", size := 3, date := 100 }
    rfl rfl rfl (by decide) (List.mem_cons_self _ _) (by decide) rfl

/-! ## C7: round-trip idempotence of the sync -/

/-- All OS-call oracles report success (downloads may still fail). -/
def Env.fsReliable (env : Env) : Prop :=
  (∀ p, env.statFail p = false) ∧ (∀ p, env.mkdirFail p = false) ∧
  (∀ p, env.createFail p = false) ∧ (∀ p, env.writeFail p = false) ∧
  (∀ p, env.readDirFail p = false)

/-- A listing whose single file entry carries the marker's own name,
with a date in the future of the clock. -/
def flMarker : filelist :=
  { Dir := "0:/sys",
    Files := [{ type := "f", name := ".duetbackup", size := 0, date := 100 }],
    next := 0 }

/-- The mirror after syncing `flMarker` once. -/
def fsMarkerSynced : Node :=
  Node.dir 0 [("backup", Node.dir 0 [(".duetbackup", Node.file 100 [])])]

/-- C7 (counterexample): after one successful sync of `flMarker`,
an immediately repeated sync with the unchanged listing performs a
download again. The marker file is unconditionally re-created
(truncated) on every visit, which resets its modification time to the
wall clock; a remote file named like the marker and dated in the
future therefore always compares as stale. -/
theorem second_sync_downloads_marker_named_entry :
    updateLocalFiles envOk flMarker ["backup"] { excls := [] } (.dir 0 []) =
      (none, fsMarkerSynced, ["0:/sys/.duetbackup"]) ∧
    updateLocalFiles envOk flMarker ["backup"] { excls := [] } fsMarkerSynced =
      (none, fsMarkerSynced, ["0:/sys/.duetbackup"]) ∧
    (["0:/sys/.duetbackup"] : List String) ≠ [] :=
  ⟨rfl, rfl, by decide⟩

/-- C7 (amended): after one successful run of the updater over a
listing none of whose entries carries the marker name `.duetbackup`,
an immediately repeated run with the unchanged listing (under
fault-free OS oracles) performs zero downloads. -/
theorem second_sync_downloads_nothing (env env2 : Env) (fl : filelist)
    (outDir : Path) (excls : excludes) (fs fs1 : Node) (log1 : List String)
    (hrel2 : env2.fsReliable)
    (hdm : ∀ f ∈ fl.Files, f.name ≠ dirMarker)
    (h1 : updateLocalFiles env fl outDir excls fs = (none, fs1, log1)) :
    ∃ fs2, updateLocalFiles env2 fl outDir excls fs1 = (none, fs2, []) := by
  cases hens : ensureOutDirExists env outDir fs with
  | mk err fsE =>
    cases err with
    | some e =>
      have hu : updateLocalFiles env fl outDir excls fs = (some e, fsE, []) := by
        unfold updateLocalFiles
        rw [hens]
      rw [hu] at h1
      simp at h1
    | none =>
      have hrun1 : processFiles env fl.Dir outDir excls fl.Files fsE =
          (none, fs1, log1) := by
        have hu : updateLocalFiles env fl outDir excls fs =
            processFiles env fl.Dir outDir excls fl.Files fsE := by
          unfold updateLocalFiles
          rw [hens]
        rw [hu] at h1
        exact h1
      obtain ⟨mE, csE0, hgetE⟩ := ensure_success_shape hens
      obtain ⟨cs1, hget1, hF1, hM1, hL1⟩ := processFiles_master env fl.Dir outDir
        excls fl.Files fsE mE _ fs1 log1 hgetE hrun1
      have hmark1 : lookupChild cs1 dirMarker = some (.file env.clock []) := by
        rw [hF1 dirMarker (fun g hg _ _ => hdm g hg)]
        exact lookupChild_setChild_self _ _ _
      obtain ⟨fsE2, hens2, hgetE2⟩ := ensure_on_existing hget1
        (by intro mm cc hx; rw [hmark1] at hx; cases hx)
        (hrel2.1 outDir) (hrel2.2.2.1 (outDir ++ [dirMarker]))
      have hall : ∀ f ∈ fl.Files, f.type = typeDirectory ∨
          excls.Contains (fl.Dir ++ "/" ++ f.name) = true ∨
          (env2.statFail (outDir ++ [f.name]) = false ∧
           needsDownload
             (lookupChild (setChild cs1 dirMarker (.file env2.clock [])) f.name)
             f.date = false) := by
        intro f hfm
        by_cases hd : f.type = typeDirectory
        · exact Or.inl hd
        · by_cases he : excls.Contains (fl.Dir ++ "/" ++ f.name) = true
          · exact Or.inr (Or.inl he)
          · replace he : excls.Contains (fl.Dir ++ "/" ++ f.name) = false := by
              revert he; cases excls.Contains (fl.Dir ++ "/" ++ f.name) <;> simp
            refine Or.inr (Or.inr ⟨hrel2.1 _, ?_⟩)
            have hlk : lookupChild (setChild cs1 dirMarker (.file env2.clock []))
                f.name = lookupChild cs1 f.name := by
              rw [lookupChild_setChild_eq_ne,
                if_neg (fun hx => hdm f hfm hx.symm)]
            rw [hlk]
            obtain ⟨cs1', nd, hget1', hnd, hle⟩ := processFiles_date_le env fl.Dir
              outDir excls fl.Files fsE mE _ fs1 log1 hgetE hrun1 f hfm hd he
            rw [hget1] at hget1'
            have hcs : cs1 = cs1' := by
              have h2 := Option.some.inj hget1'
              cases h2
              rfl
            rw [← hcs] at hnd
            rw [hnd]
            simp only [needsDownload, decide_eq_false_iff_not, not_lt]
            exact hle
      have hfresh := processFiles_all_fresh env2 fl.Dir outDir excls fl.Files
        fsE2 mE _ hgetE2 hall
      refine ⟨fsE2, ?_⟩
      have hu2 : updateLocalFiles env2 fl outDir excls fs1 =
          processFiles env2 fl.Dir outDir excls fl.Files fsE2 := by
        unfold updateLocalFiles
        rw [hens2]
      rw [hu2, hfresh]

/-- Witness for C7 at the one-file listing `flA`. -/
theorem second_sync_downloads_nothing_witness :
    ∃ fs2, updateLocalFiles envOk flA ["backup"] { excls := [] } fsAfterRun =
      (none, fs2, []) :=
  second_sync_downloads_nothing envOk envOk flA ["backup"] { excls := [] }
    (.dir 0 []) fsAfterRun ["0:/sys/a.txt"]
    ⟨fun _ => rfl, fun _ => rfl, fun _ => rfl, fun _ => rfl, fun _ => rfl⟩
    (by decide) rfl

/-! ## Sync orchestrator: `syncFolder` -/

mutual

/-- `syncFolder` from the source, with the unbounded recursion over
remote tree depth made total by a fuel argument: skip excluded
folders, fetch the listing, update the mirror, optionally reclaim,
then recurse into subdirectories in listing order. Each stage's error
returns at once. -/
def syncFolder (env : Env) (server : ListServer) (excls : excludes)
    (removeLocal : Bool) : Nat → String → Path → Node →
    Option String × Node × List String
  | 0, _, _, fs => (some "recursion limit", fs, [])
  | fuel + 1, folder, outDir, fs =>
    if excls.Contains folder then (none, fs, [])
    else
      match getFileList server folder 0 (fuel + 1) with
      | .error e => (some e, fs, [])
      | .ok fl =>
        match updateLocalFiles env fl outDir excls fs with
        | (some e, fs1, log1) => (some e, fs1, log1)
        | (none, fs1, log1) =>
          match (if removeLocal then removeDeletedFiles env fl outDir fs1
                 else (none, fs1)) with
          | (some e, fs2) => (some e, fs2, log1)
          | (none, fs2) =>
            let r := syncChildren env server excls removeLocal fuel
              fl.Dir outDir fl.Files fs2
            (r.1, r.2.1, log1 ++ r.2.2)

/-- The trailing loop of `syncFolder`: recurse into each directory
entry, with remote path `fl.Dir + "/" + name` and local path
`filepath.Join(outDir, name)`. -/
def syncChildren (env : Env) (server : ListServer) (excls : excludes)
    (removeLocal : Bool) : Nat → String → Path → List file → Node →
    Option String × Node × List String
  | _, _, _, [], fs => (none, fs, [])
  | fuel, flDir, outDir, f :: rest, fs =>
    if f.type ≠ typeDirectory then
      syncChildren env server excls removeLocal fuel flDir outDir rest fs
    else
      match syncFolder env server excls removeLocal fuel
          (flDir ++ "/" ++ f.name) (outDir ++ [f.name]) fs with
      | (some e, fs1, log1) => (some e, fs1, log1)
      | (none, fs1, log1) =>
        let r := syncChildren env server excls removeLocal fuel flDir outDir rest fs1
        (r.1, r.2.1, log1 ++ r.2.2)

end

/-! ## C8: fatal failures during the mirror update -/

/-- C8: any download or filesystem-write failure while processing one
listing entry is fatal: `updateLocalFiles` returns that error at once,
with a result independent of every later entry of the listing (no
entry after the failing one is processed), and `syncFolder` aborts the
sync of the folder with the same error (the reclaim step and the
recursion into subdirectories are never reached). -/
theorem update_failure_is_fatal (env : Env) (server : ListServer)
    (excls : excludes) (removeLocal : Bool) (folder : String) (outDir : Path)
    (fs fsE fsP fsB : Node) (flDir : String) (nx : Nat)
    (pre post : List file) (bad : file) (logP logB : List String)
    (err : String) (fuel : Nat)
    (hnx : excls.Contains folder = false)
    (hfl : getFileList server folder 0 (fuel + 1) =
      .ok { Dir := flDir, Files := pre ++ bad :: post, next := nx })
    (hens : ensureOutDirExists env outDir fs = (none, fsE))
    (hpre : processFiles env flDir outDir excls pre fsE = (none, fsP, logP))
    (hbad : processFiles env flDir outDir excls [bad] fsP = (some err, fsB, logB)) :
    updateLocalFiles env { Dir := flDir, Files := pre ++ bad :: post, next := nx }
        outDir excls fs = (some err, fsB, logP ++ logB) ∧
    syncFolder env server excls removeLocal (fuel + 1) folder outDir fs =
      (some err, fsB, logP ++ logB) := by
  have hbp : processFiles env flDir outDir excls (bad :: post) fsP =
      (some err, fsB, logB) := by
    have h2 := processFiles_append_err env flDir outDir excls [bad] post fsP
      err fsB logB hbad
    simpa using h2
  have hupd : updateLocalFiles env
      { Dir := flDir, Files := pre ++ bad :: post, next := nx } outDir excls fs =
      (some err, fsB, logP ++ logB) := by
    have hu : updateLocalFiles env
        { Dir := flDir, Files := pre ++ bad :: post, next := nx } outDir excls fs =
        processFiles env flDir outDir excls (pre ++ bad :: post) fsE := by
      unfold updateLocalFiles
      rw [hens]
    rw [hu, processFiles_append_ok env flDir outDir excls pre (bad :: post)
      fsE fsP logP hpre, hbp]
  refine ⟨hupd, ?_⟩
  unfold syncFolder
  rw [if_neg (by simp [hnx]), hfl]
  simp only [hupd]

/-- A download oracle that always fails. -/
def envDownBoom : Env :=
  { envOk with download := fun _ => .error "boom" }

/-- A one-page, one-file server for the C8 witness. -/
def serverA : ListServer := fun d _ =>
  if d = "0:/sys" then .ok { Dir := "0:/sys", Files := flA.Files, next := 0 }
  else .error "unknown dir"

/-- Witness for C8: with a failing download, the update and the whole
folder sync abort with that error, and nothing after the failing entry
is processed. -/
theorem update_failure_is_fatal_witness :
    updateLocalFiles envDownBoom
        { Dir := "0:/sys", Files := [] ++ flAfile :: [], next := 0 }
        ["backup"] { excls := [] } (.dir 0 []) =
      (some "boom", fsAfterEnsure, [] ++ ["0:/sys/a.txt"]) ∧
    syncFolder envDownBoom serverA { excls := [] } false 1 "0:/sys" ["backup"]
        (.dir 0 []) =
      (some "boom", fsAfterEnsure, [] ++ ["0:/sys/a.txt"]) :=
  update_failure_is_fatal envDownBoom serverA { excls := [] } false "0:/sys"
    ["backup"] (.dir 0 []) fsAfterEnsure fsAfterEnsure fsAfterEnsure
    "0:/sys" 0 [] [] flAfile [] ["0:/sys/a.txt"] "boom" 0
    rfl rfl rfl rfl rfl

end Duetbackup
